import Mathlib

/-! NPC path length by Simpson's rules (`npc_path_length.c`).

A shallow embedding of the numerical core of `npc_path_length.c`, read over the real
numbers: `double` is `ℝ`, `sqrt`, `cos`, `sin` are the real functions, and the C `int`
segment count is an `Int`.  Inside `calculate_total_length` the loop counters stay below
`n`, and `simpson_one_third` is only entered with an even count, so no `int` operation of
the embedded code wraps.
-/

namespace NpcPath

noncomputable section

/-! ## Curve model -/

/-- Source `path_function`: `2 * sin(x) + 0.5 * x`. -/
def path_function (x : ℝ) : ℝ :=
  2 * Real.sin x + 0.5 * x

/-- Source `integrand`: `derivative = 2 * cos(x) + 0.5; return sqrt(1 + pow(derivative, 2))`. -/
def integrand (x : ℝ) : ℝ :=
  let derivative := 2 * Real.cos x + 0.5
  Real.sqrt (1 + derivative ^ 2)

/-! ## Quadrature rules -/

/-- The loop `for (int i = i0; i < n; i += 2) sum += c * integrand(a + i * h);` of
`simpson_one_third`, entered with counter `i` and accumulator `sum`. -/
def simpson_loop (c a : ℝ) (n : Int) (h : ℝ) (i : Int) (sum : ℝ) : ℝ :=
  if i < n then simpson_loop c a n h (i + 2) (sum + c * integrand (a + (i : ℝ) * h)) else sum
termination_by (n - i).toNat
decreasing_by omega

/-- Source `simpson_one_third(a, n, h)`: the two weighted loops, then the end points, then
the scaling by `h / 3.0`. -/
def simpson_one_third (a : ℝ) (n : Int) (h : ℝ) : ℝ :=
  let sum : ℝ := 0.0
  let sum := simpson_loop 4 a n h 1 sum
  let sum := simpson_loop 2 a n h 2 sum
  let sum := sum + (integrand a + integrand (a + (n : ℝ) * h))
  (h / 3.0) * sum

/-- Source `simpson_three_eighths(a, h)`. -/
def simpson_three_eighths (a h : ℝ) : ℝ :=
  (3.0 * h / 8.0) *
    (integrand a + 3 * integrand (a + h) + 3 * integrand (a + 2 * h) + integrand (a + 3 * h))

/-! ## Length calculator -/

/-- The part of `calculate_total_length` below the computation of `h`: the parity dispatch. -/
def length_with_step (a b : ℝ) (n : Int) (h : ℝ) : ℝ :=
  if n % 2 = 0 then
    simpson_one_third a n h
  else if n ≥ 3 then
    let length := simpson_three_eighths (a + ((n - 3 : Int) : ℝ) * h) h
    if n > 3 then length + simpson_one_third a (n - 3) h else length
  else
    (h / 2.0) * (integrand a + integrand b)

/-- Source `calculate_total_length(a, b, n)`: the guard `n <= 0`, then `h = (b - a) / n`,
then the parity dispatch. -/
def calculate_total_length (a b : ℝ) (n : Int) : ℝ :=
  if n ≤ 0 then 0.0
  else length_with_step a b n ((b - a) / (n : ℝ))

/-- Division of a real by an integer count that is undefined for a zero count. -/
def checked_div (x : ℝ) (n : Int) : Option ℝ :=
  if n = 0 then none else some (x / (n : ℝ))

/-- The function `calculate_total_length` with its one division `(b - a) / n` made partial:
the result is `none` as soon as the division is evaluated with `n = 0`. -/
def calculate_total_length_checked (a b : ℝ) (n : Int) : Option ℝ :=
  if n ≤ 0 then some 0.0
  else (checked_div (b - a) n).map (length_with_step a b n)

/-! ## Report writers and `main`

The console and file output of the writers is modelled by the rows they emit.  The outcome
of `fopen` is an input of the model (`file_ok`); the values read by `scanf` are the
arguments `a`, `b`, `v` of `main`. -/

/-- Source `n_values[]` of `run_convergence_analysis`. -/
def n_values : List Int := [10, 51, 100, 501, 1000, 5000, 10001]

/-- Source `num_n_values = sizeof(n_values) / sizeof(n_values[0])`. -/
def num_n_values : Nat := n_values.length

/-- Source `run_convergence_analysis(a, b)`, as the list of rows `(n, length)` it prints to
the console table and to `convergence_analysis.csv`.  When `fopen` fails the function
reports the error and returns before the table header and the loop. -/
def run_convergence_analysis (file_ok : Bool) (a b : ℝ) : List (Int × ℝ) :=
  if file_ok = false then []
  else
    (List.range num_n_values).map (fun (i : Nat) =>
      let n := n_values.getD i 0
      let length := calculate_total_length a b n
      (n, length))

/-- Source `generate_path_data_for_plotting(a, b, num_points)`, as the list of rows
`(current_x, current_y)` it writes to `path_data.csv`.  When `fopen` fails the function
reports the error and returns before the loop. -/
def generate_path_data_for_plotting (file_ok : Bool) (a b : ℝ) (num_points : Int) :
    List (ℝ × ℝ) :=
  if file_ok = false then []
  else
    let step := (b - a) / ((num_points - 1 : Int) : ℝ)
    (List.range num_points.toNat).map (fun (i : Nat) =>
      let current_x := a + (i : ℝ) * step
      let current_y := path_function current_x
      (current_x, current_y))

/-- A call of one of the three computing functions, with its arguments. -/
inductive CoreCall where
  | run_convergence_analysis (a b : ℝ)
  | calculate_total_length (a b : ℝ) (n : Int)
  | generate_path_data_for_plotting (a b : ℝ) (num_points : Int)

/-- The quotient `x / v` of two reals, undefined for `v = 0`: there the C division does not
give a real number (the program prints `inf` or `nan`). -/
def checked_quotient (x v : ℝ) : Option ℝ :=
  if v = 0 then none else some (x / v)

/-- What a run of `main` shows: the exit status, the calls of the computing functions in
the order they are made, the convergence table, the two reported numbers and the plot
rows.  `final_length` is `none` when nothing is reported; `travel_time` is `none` when
nothing is reported or when the reported quotient is not a real number. -/
structure MainResult where
  status : Int
  calls : List CoreCall
  table : List (Int × ℝ)
  final_length : Option ℝ
  travel_time : Option ℝ
  plot : List (ℝ × ℝ)

/-- Source `main`, for the inputs `a`, `b`, `v` and the outcomes `csv_ok`, `plot_ok` of the
two `fopen` calls.  `run_convergence_analysis` calls `calculate_total_length` once for each
row it emits.  The speed `v` is not validated: the travel time is `final_length / v`, which
is a real number only for `v ≠ 0`. -/
def main (csv_ok plot_ok : Bool) (a b v : ℝ) : MainResult :=
  if b ≤ a then
    { status := 1, calls := [], table := [], final_length := none, travel_time := none,
      plot := [] }
  else
    let table := run_convergence_analysis csv_ok a b
    let final_length := calculate_total_length a b 10001
    let plot := generate_path_data_for_plotting plot_ok a b 200
    { status := 0,
      calls := CoreCall.run_convergence_analysis a b
        :: (table.map (fun row => CoreCall.calculate_total_length a b row.1)
          ++ [CoreCall.calculate_total_length a b 10001,
              CoreCall.generate_path_data_for_plotting a b 200]),
      table := table,
      final_length := some final_length,
      travel_time := checked_quotient final_length v,
      plot := plot }

/-! ## The quadrature sums as the specification words them -/

/-- Classical Simpson weighting of node `i` out of `0..n`: end points 1, odd interior
nodes 4, even interior nodes 2. -/
def simpson_weight (n i : Nat) : ℝ :=
  if i = 0 ∨ i = n then 1 else if i % 2 = 1 then 4 else 2

/-- The direct composite Simpson 1/3 sum over `n` segments of width `h` starting at `a`:
`(h/3) * Σ_{i=0..n} w_i * integrand(a + i*h)`. -/
def composite_simpson_sum (a h : ℝ) (n : Nat) : ℝ :=
  (h / 3) * ∑ i in Finset.range (n + 1), simpson_weight n i * integrand (a + (i : ℝ) * h)

/-- The 4-node Simpson 3/8 sum over 3 segments of width `h` starting at `x0`, weights
`(1, 3, 3, 1)` scaled by `3h/8`. -/
def three_eighths_sum (x0 h : ℝ) : ℝ :=
  (3 * h / 8) *
    (integrand x0 + 3 * integrand (x0 + h) + 3 * integrand (x0 + 2 * h)
      + integrand (x0 + 3 * h))

end

/-! ## A certified fixed-point evaluator for the integrand

These definitions are not part of the program: they compute, in integer arithmetic,
lower and upper bounds of the real quantities that the embedded code denotes, so that
numerical statements about `calculate_total_length` can be checked by evaluation. -/

/-- Fixed-point scale of the evaluator: values are carried as multiples of `1/SC`. -/
def SC : Nat := 1000000000000

/-- Even-order part of the degree-42 cosine polynomial at `x = p/q`, cleared of
denominators: `Σ_(j<11) (42!/(4j)!) * p4^j * q4^(10-j)` with `p4 = p^4`, `q4 = q^4`. -/
def cos_even_num (p4 q4 : Nat) : Nat :=
  Nat.add (Nat.mul
   (Nat.add (Nat.mul
    (Nat.add (Nat.mul
     (Nat.add (Nat.mul
      (Nat.add (Nat.mul
       (Nat.add (Nat.mul
        (Nat.add (Nat.mul
         (Nat.add (Nat.mul
          (Nat.add (Nat.mul
           (Nat.add (Nat.mul
            1722
            p4) (Nat.mul 3776965920 q4))
           p4) (Nat.mul 5339572260422400 (Nat.pow q4 2)))
          p4) (Nat.mul 4608264443634948096000 (Nat.pow q4 3)))
         p4) (Nat.mul 2264501147602213494374400000 (Nat.pow q4 4)))
        p4) (Nat.mul 577502140666106894189336985600000 (Nat.pow q4 5)))
       p4) (Nat.mul 67151948916654909656336104685568000000 (Nat.pow q4 6)))
      p4) (Nat.mul 2933197128679486453788761052665610240000000 (Nat.pow q4 7)))
     p4) (Nat.mul 34846381888712299071010481305667449651200000000 (Nat.pow q4 8)))
    p4) (Nat.mul 58541921573036662439297608593521315414016000000000 (Nat.pow q4 9)))
   p4) (Nat.mul 1405006117752879898543142606244511569936384000000000 (Nat.pow q4 10))

/-- Odd-order part of the degree-42 cosine polynomial at `x = p/q`, cleared of
denominators: `Σ_(j<11) (42!/(4j+2)!) * p4^j * q4^(10-j)`. -/
def cos_odd_num (p4 q4 : Nat) : Nat :=
  Nat.add (Nat.mul
   (Nat.add (Nat.mul
    (Nat.add (Nat.mul
     (Nat.add (Nat.mul
      (Nat.add (Nat.mul
       (Nat.add (Nat.mul
        (Nat.add (Nat.mul
         (Nat.add (Nat.mul
          (Nat.add (Nat.mul
           (Nat.add (Nat.mul
            1
            p4) (Nat.mul 2686320 q4))
           p4) (Nat.mul 4758977059200 (Nat.pow q4 2)))
          p4) (Nat.mul 5296855682339020800 (Nat.pow q4 3)))
         p4) (Nat.mul 3483847919388020760576000 (Nat.pow q4 4)))
        p4) (Nat.mul 1250004633476421848894668800000 (Nat.pow q4 5)))
       p4) (Nat.mul 219450813453120619791948054528000000 (Nat.pow q4 6)))
      p4) (Nat.mul 16116467739997178317520665124536320000000 (Nat.pow q4 7)))
     p4) (Nat.mul 387182020985692211900116458951860551680000000 (Nat.pow q4 8)))
    p4) (Nat.mul 1951397385767888747976586953117377180467200000000 (Nat.pow q4 9)))
   p4) (Nat.mul 702503058876439949271571303122255784968192000000000 (Nat.pow q4 10))

/-- Lower bound of `SC * |2 * C + 1/2|` for the cosine polynomial `C` at `p/q`, as a
floor of the exact quotient. -/
def deriv_abs_floor (p2 q2 : Nat) : Nat :=
  let p4 := Nat.mul p2 p2
  let q4 := Nat.mul q2 q2
  let den := Nat.mul 1405006117752879898543142606244511569936384000000000
    (Nat.mul q2 (Nat.pow q4 10))
  let pos := Nat.add (Nat.mul 4 (Nat.mul q2 (cos_even_num p4 q4))) den
  let neg := Nat.mul 4 (Nat.mul p2 (cos_odd_num p4 q4))
  Nat.div (Nat.mul SC (Nat.add (Nat.sub pos neg) (Nat.sub neg pos))) (Nat.mul 2 den)

/-- Upper bound of `SC * 2 * R` for the remainder bound `R = 2 * x^44 / 44!` of the
cosine polynomial at `x = p/q`. -/
def deriv_rem (p2 q2 : Nat) : Nat :=
  Nat.succ (Nat.div (Nat.mul (Nat.mul 4 SC) (Nat.pow p2 22))
    (Nat.mul 2658271574788448768043625811014615890319638528000000000 (Nat.pow q2 22)))

/-- One Newton step for the integer square root of `v`. -/
def newton_step (v r : Nat) : Nat :=
  Nat.div (Nat.add r (Nat.div v r)) 2

/-- Five Newton steps for the square root of `v`, started at `2 * SC`. -/
def newton_sqrt (v : Nat) : Nat :=
  newton_step v (newton_step v (newton_step v (newton_step v (newton_step v (Nat.mul 2 SC)))))

/-- A checked lower bound of the square root of `v`. -/
def sqrt_lo (v : Nat) : Nat :=
  let r := Nat.sub (newton_sqrt v) 2
  bif Nat.ble (Nat.mul r r) v then r else 0

/-- A checked upper bound of the square root of `v`. -/
def sqrt_hi (v : Nat) : Nat :=
  let r := Nat.add (newton_sqrt v) 2
  bif Nat.ble v (Nat.mul r r) then r else Nat.succ v

/-- Lower bound of `SC * integrand (p/q)`. -/
def integrand_lo (p q : Nat) : Nat :=
  let p2 := Nat.mul p p
  let q2 := Nat.mul q q
  let d := Nat.sub (deriv_abs_floor p2 q2) (deriv_rem p2 q2)
  sqrt_lo (Nat.add (Nat.mul SC SC) (Nat.mul d d))

/-- Upper bound of `SC * integrand (p/q)`. -/
def integrand_hi (p q : Nat) : Nat :=
  let p2 := Nat.mul p p
  let q2 := Nat.mul q q
  let d := Nat.add (Nat.succ (deriv_abs_floor p2 q2)) (deriv_rem p2 q2)
  sqrt_hi (Nat.add (Nat.mul SC SC) (Nat.mul d d))

/-- The weight, in units of `h/24`, that `calculate_total_length` gives node `i` of
`0..n`: `8 * (1, 4, 2, ..., 4, 1)` for an even count; for an odd count `n ≥ 3` the same
over the first `n - 3` segments plus `9 * (1, 3, 3, 1)` over the last three; `12, 12` for
`n = 1`; and `0` beyond node `n`. -/
def quad_weight (n i : Nat) : Nat :=
  bif Nat.ble i n then
    bif Nat.beq (Nat.mod n 2) 0 then
      (bif Nat.beq i 0 || Nat.beq i n then 8 else bif Nat.beq (Nat.mod i 2) 1 then 32 else 16)
    else bif Nat.beq n 1 then 12
    else bif Nat.blt (Nat.add i 3) n then
      (bif Nat.beq i 0 then 8 else bif Nat.beq (Nat.mod i 2) 1 then 32 else 16)
    else bif Nat.beq (Nat.add i 3) n then (bif Nat.beq n 3 then 9 else 17)
    else bif Nat.beq i n then 9 else 27
  else 0

/-- Sum of `f` over the `2^d` indices from `s` on, by halving. -/
def block_sum (f : Nat → Nat) : Nat → Nat → Nat
  | 0, s => f s
  | d + 1, s => Nat.add (block_sum f d s) (block_sum f d (Nat.add s (Nat.pow 2 d)))

/-- Lower bound of `SC * Σ_i quad_weight n i * integrand (10 * i / n)` over the first `2^d`
nodes. -/
def weighted_lo (n d : Nat) : Nat :=
  block_sum (fun i => bif Nat.ble i n then
    Nat.mul (quad_weight n i) (integrand_lo (Nat.mul 10 i) n) else 0) d 0

/-- Upper bound of `SC * Σ_i quad_weight n i * integrand (10 * i / n)` over the first `2^d`
nodes. -/
def weighted_hi (n d : Nat) : Nat :=
  block_sum (fun i => bif Nat.ble i n then
    Nat.mul (quad_weight n i) (integrand_hi (Nat.mul 10 i) n) else 0) d 0

/-! ## Basic facts about the integrand and the loops -/

theorem integrand_nonneg (x : ℝ) : 0 ≤ integrand x := by
  unfold integrand
  exact Real.sqrt_nonneg _

theorem simpson_loop_unfold (c a : ℝ) (n : Int) (h : ℝ) (i : Int) (sum : ℝ) :
    simpson_loop c a n h i sum =
      if i < n then simpson_loop c a n h (i + 2) (sum + c * integrand (a + (i : ℝ) * h))
      else sum := by
  rw [simpson_loop]

/-- A loop that needs `m` passes adds the `m` weighted samples at `i, i+2, ...`. -/
theorem simpson_loop_eq_sum (c a : ℝ) (n : Int) (h : ℝ) :
    ∀ (m : Nat) (i : Int) (sum : ℝ), n ≤ i + 2 * (m : Int) →
      (m ≠ 0 → i + 2 * ((m : Int) - 1) < n) →
      simpson_loop c a n h i sum =
        sum + ∑ j in Finset.range m, c * integrand (a + ((i + 2 * (j : Int) : Int) : ℝ) * h) := by
  intro m
  induction m with
  | zero =>
    intro i sum h1 _
    rw [simpson_loop_unfold, if_neg (by simp at h1; omega)]
    simp
  | succ m ih =>
    intro i sum h1 h2
    have h3 : i < n := by
      have := h2 (Nat.succ_ne_zero m)
      push_cast at this
      omega
    rw [simpson_loop_unfold, if_pos h3, ih (i + 2) _ (by push_cast at h1; omega)
      (by intro hm; have := h2 (Nat.succ_ne_zero m); push_cast at this; omega)]
    rw [Finset.sum_range_succ' _ m]
    simp only [Nat.cast_add, Nat.cast_one, Nat.cast_zero, mul_zero, add_zero]
    have : ∀ j : Nat, (i + 2 + 2 * (j : Int)) = (i + 2 * ((j : Int) + 1)) := by intro j; ring
    simp only [this]
    ring

/-- With a non-negative weight the loop never lowers a non-negative accumulator. -/
theorem simpson_loop_nonneg (c a : ℝ) (n : Int) (h : ℝ) (hc : 0 ≤ c) :
    ∀ (m : Nat) (i : Int) (sum : ℝ), (n - i).toNat ≤ m → 0 ≤ sum →
      0 ≤ simpson_loop c a n h i sum := by
  intro m
  induction m with
  | zero =>
    intro i sum h1 h2
    rw [simpson_loop_unfold, if_neg (by omega)]
    exact h2
  | succ m ih =>
    intro i sum h1 h2
    rw [simpson_loop_unfold]
    split_ifs with h3
    · exact ih _ _ (by omega) (add_nonneg h2 (mul_nonneg hc (integrand_nonneg _)))
    · exact h2

theorem simpson_one_third_nonneg (a : ℝ) (n : Int) (h : ℝ) (hh : 0 ≤ h) :
    0 ≤ simpson_one_third a n h := by
  unfold simpson_one_third
  have h1 : (0 : ℝ) ≤ simpson_loop 4 a n h 1 0.0 :=
    simpson_loop_nonneg 4 a n h (by norm_num) _ 1 0.0 le_rfl (by norm_num)
  have h2 := simpson_loop_nonneg 2 a n h (by norm_num) _ 2 _ le_rfl h1
  exact mul_nonneg (div_nonneg hh (by norm_num))
    (add_nonneg h2 (add_nonneg (integrand_nonneg _) (integrand_nonneg _)))

theorem simpson_three_eighths_nonneg (a h : ℝ) (hh : 0 ≤ h) :
    0 ≤ simpson_three_eighths a h := by
  unfold simpson_three_eighths
  have := integrand_nonneg a
  have := integrand_nonneg (a + h)
  have := integrand_nonneg (a + 2 * h)
  have := integrand_nonneg (a + 3 * h)
  exact mul_nonneg (div_nonneg (mul_nonneg (by norm_num) hh) (by norm_num)) (by linarith)

/-! ## Closed forms of the composite rule -/

/-- Sum of a sequence against the parity weights 2 (even index) and 4 (odd index). -/
theorem parity_weight_sum (f : Nat → ℝ) (m : Nat) :
    ∑ i in Finset.range (2 * m + 1), (if i % 2 = 1 then (4 : ℝ) else 2) * f i =
      2 * f 0 + ∑ j in Finset.range m, (4 * f (2 * j + 1) + 2 * f (2 * j + 2)) := by
  induction m with
  | zero => simp
  | succ m ih =>
    rw [show 2 * (m + 1) + 1 = (2 * m + 1) + 1 + 1 by ring, Finset.sum_range_succ,
      Finset.sum_range_succ, ih, Finset.sum_range_succ]
    have h1 : (2 * m + 1) % 2 = 1 := by omega
    have h2 : ¬ ((2 * m + 1 + 1) % 2 = 1) := by omega
    rw [if_pos h1, if_neg h2]
    ring

/-- The Simpson weights over `0..2(k+1)` regrouped into end points, odd nodes and even
interior nodes. -/
theorem simpson_weight_sum (f : Nat → ℝ) (k : Nat) :
    ∑ i in Finset.range (2 * (k + 1) + 1), simpson_weight (2 * (k + 1)) i * f i =
      ∑ j in Finset.range (k + 1), 4 * f (2 * j + 1) + ∑ j in Finset.range k, 2 * f (2 * j + 2)
        + (f 0 + f (2 * (k + 1))) := by
  have hw : ∀ i : Nat, simpson_weight (2 * (k + 1)) i * f i =
      (if i % 2 = 1 then (4 : ℝ) else 2) * f i - (if i = 0 then f i else 0)
        - (if i = 2 * (k + 1) then f i else 0) := by
    intro i
    unfold simpson_weight
    by_cases h0 : i = 0
    · subst h0; simp; ring
    · by_cases hn : i = 2 * (k + 1)
      · subst hn
        have : ¬ (2 * (k + 1) % 2 = 1) := by omega
        simp [this]; ring
      · simp [h0, hn]
  simp only [hw]
  rw [Finset.sum_sub_distrib, Finset.sum_sub_distrib, parity_weight_sum,
    Finset.sum_ite_eq', Finset.sum_ite_eq', if_pos (by simp), if_pos (by simp),
    Finset.sum_add_distrib, Finset.sum_range_succ (fun j => 2 * f (2 * j + 2)) k,
    show 2 * k + 2 = 2 * (k + 1) by ring]
  ring

/-- The two loops of `simpson_one_third` for an even count `2(k+1)`. -/
theorem simpson_one_third_even (a h : ℝ) (k : Nat) :
    simpson_one_third a (2 * ((k : Int) + 1)) h =
      (h / 3) * (∑ j in Finset.range (k + 1), 4 * integrand (a + ((2 * j + 1 : Nat) : ℝ) * h)
        + ∑ j in Finset.range k, 2 * integrand (a + ((2 * j + 2 : Nat) : ℝ) * h)
        + (integrand a + integrand (a + ((2 * (k + 1) : Nat) : ℝ) * h))) := by
  unfold simpson_one_third
  simp only []
  rw [simpson_loop_eq_sum 4 a _ h (k + 1) 1 _ (by push_cast; omega)
      (by intro _; push_cast; omega),
    simpson_loop_eq_sum 2 a _ h k 2 _ (by omega) (by intro _; omega)]
  have e1 : ∀ j : Nat, (((1 + 2 * (j : Int) : Int)) : ℝ) = ((2 * j + 1 : Nat) : ℝ) := by
    intro j; push_cast; ring
  have e2 : ∀ j : Nat, (((2 + 2 * (j : Int) : Int)) : ℝ) = ((2 * j + 2 : Nat) : ℝ) := by
    intro j; push_cast; ring
  have e3 : (((2 * ((k : Int) + 1) : Int)) : ℝ) = ((2 * (k + 1) : Nat) : ℝ) := by
    push_cast; ring
  simp only [e1, e2, e3]
  norm_num

/-- The code's composite rule is the direct weighted sum, for every even count `≥ 2`. -/
theorem simpson_one_third_eq_composite (a h : ℝ) (n : Int) (h2 : 2 ≤ n) (he : n % 2 = 0) :
    simpson_one_third a n h = composite_simpson_sum a h n.toNat := by
  obtain ⟨k, hk⟩ : ∃ k : Nat, n = 2 * ((k : Int) + 1) := ⟨(n / 2 - 1).toNat, by omega⟩
  subst hk
  have ht : (2 * ((k : Int) + 1)).toNat = 2 * (k + 1) := by omega
  rw [simpson_one_third_even, ht]
  unfold composite_simpson_sum
  rw [simpson_weight_sum (fun i => integrand (a + (i : ℝ) * h)) k]
  simp

/-! ## Claims on the length calculator -/

/-- On an interval with `b > a` the length is non-negative, whatever the count. -/
theorem length_nonneg (a b : ℝ) (n : Int) (hab : a < b) :
    0 ≤ calculate_total_length a b n := by
  unfold calculate_total_length
  split_ifs with h0
  · norm_num
  · have hn' : (0 : ℝ) < (n : ℝ) := by exact_mod_cast (by omega : (0 : Int) < n)
    have hh : 0 ≤ (b - a) / (n : ℝ) := div_nonneg (by linarith) hn'.le
    unfold length_with_step
    split_ifs
    · exact simpson_one_third_nonneg _ _ _ hh
    · exact add_nonneg (simpson_three_eighths_nonneg _ _ hh) (simpson_one_third_nonneg _ _ _ hh)
    · exact simpson_three_eighths_nonneg _ _ hh
    · exact mul_nonneg (div_nonneg hh (by norm_num))
        (add_nonneg (integrand_nonneg _) (integrand_nonneg _))

/-- C1: for every interval with `b > a` and every segment count `n ≥ 0`, the length
returned by `calculate_total_length` is non-negative. -/
theorem calculate_total_length_nonneg (a b : ℝ) (n : Int) (hab : a < b) (_hn : 0 ≤ n) :
    0 ≤ calculate_total_length a b n :=
  length_nonneg a b n hab

theorem calculate_total_length_nonneg_witness :
    (0 : ℝ) < 10 ∧ (0 : Int) ≤ 51 ∧ 0 ≤ calculate_total_length 0 10 51 :=
  ⟨by norm_num, by decide, calculate_total_length_nonneg 0 10 51 (by norm_num) (by decide)⟩

/-- An even count `≥ 2` takes the composite 1/3 branch over all segments. -/
theorem length_even_eq_composite (a b : ℝ) (n : Int) (h2 : 2 ≤ n) (he : n % 2 = 0) :
    calculate_total_length a b n = composite_simpson_sum a ((b - a) / (n : ℝ)) n.toNat := by
  unfold calculate_total_length length_with_step
  rw [if_neg (by omega), if_pos he]
  exact simpson_one_third_eq_composite a _ n h2 he

/-- C2: for every even segment count `n ≥ 2`, `calculate_total_length a b n` is the direct
composite Simpson 1/3 sum `(h/3) * Σ_{i=0..n} w_i * integrand(a + i*h)` with
`h = (b - a)/n` and weights 1, 4, 2, ..., 4, 1. -/
theorem calculate_total_length_even (a b : ℝ) (n : Int) (h2 : 2 ≤ n) (he : n % 2 = 0) :
    calculate_total_length a b n = composite_simpson_sum a ((b - a) / (n : ℝ)) n.toNat :=
  length_even_eq_composite a b n h2 he

theorem calculate_total_length_even_witness :
    (2 : Int) ≤ 10 ∧ (10 : Int) % 2 = 0 ∧
      calculate_total_length 0 10 10 = composite_simpson_sum 0 ((10 - 0) / ((10 : Int) : ℝ))
        (10 : Int).toNat :=
  ⟨by decide, by decide, calculate_total_length_even 0 10 10 (by decide) (by decide)⟩

/-- An odd count `≥ 3` splits into the composite 1/3 rule on the leading `n - 3` segments
and the 3/8 rule on the trailing three. -/
theorem length_odd_eq_split (a b : ℝ) (n : Int) (h3 : 3 ≤ n) (ho : n % 2 = 1) :
    calculate_total_length a b n =
      (if n = 3 then 0 else composite_simpson_sum a ((b - a) / (n : ℝ)) (n - 3).toNat)
        + three_eighths_sum (a + ((n : ℝ) - 3) * ((b - a) / (n : ℝ))) ((b - a) / (n : ℝ)) := by
  unfold calculate_total_length length_with_step
  rw [if_neg (by omega), if_neg (by omega), if_pos (by omega)]
  have e38 : simpson_three_eighths (a + ((n - 3 : Int) : ℝ) * ((b - a) / (n : ℝ)))
      ((b - a) / (n : ℝ)) =
      three_eighths_sum (a + ((n : ℝ) - 3) * ((b - a) / (n : ℝ))) ((b - a) / (n : ℝ)) := by
    unfold simpson_three_eighths three_eighths_sum
    push_cast
    norm_num
  by_cases h : n = 3
  · subst h
    simp only [gt_iff_lt, lt_self_iff_false, if_false, if_true]
    rw [e38]
    ring
  · simp only [gt_iff_lt]
    rw [if_pos (by omega), if_neg h, e38,
      simpson_one_third_eq_composite a _ (n - 3) (by omega) (by omega)]
    ring

/-- C3: for every odd segment count `n ≥ 3`, with `h = (b - a)/n`, the result is
`S13 + S38`: `S38` the 3/8 rule on the trailing three segments starting at
`x0 = a + (n-3)*h`, and `S13` the composite 1/3 sum over the first `n - 3` segments when
`n > 3`, and `0` when `n = 3`. -/
theorem calculate_total_length_odd (a b : ℝ) (n : Int) (h3 : 3 ≤ n) (ho : n % 2 = 1) :
    calculate_total_length a b n =
      (if n = 3 then 0 else composite_simpson_sum a ((b - a) / (n : ℝ)) (n - 3).toNat)
        + three_eighths_sum (a + ((n : ℝ) - 3) * ((b - a) / (n : ℝ))) ((b - a) / (n : ℝ)) :=
  length_odd_eq_split a b n h3 ho

theorem calculate_total_length_odd_witness :
    (3 : Int) ≤ 51 ∧ (51 : Int) % 2 = 1 ∧
      calculate_total_length 0 10 51 =
        (if (51 : Int) = 3 then 0
          else composite_simpson_sum 0 ((10 - 0) / ((51 : Int) : ℝ)) ((51 : Int) - 3).toNat)
        + three_eighths_sum (0 + (((51 : Int) : ℝ) - 3) * ((10 - 0) / ((51 : Int) : ℝ)))
            ((10 - 0) / ((51 : Int) : ℝ)) :=
  ⟨by decide, by decide, calculate_total_length_odd 0 10 51 (by decide) (by decide)⟩

/-- One segment takes the trapezoid branch. -/
theorem length_one_eq_trapezoid (a b : ℝ) :
    calculate_total_length a b 1 = ((b - a) / 2) * (integrand a + integrand b) := by
  unfold calculate_total_length length_with_step
  norm_num

/-- C4: with one segment the result is exactly the trapezoidal rule
`(h/2) * (integrand(a) + integrand(b))` with `h = b - a`. -/
theorem calculate_total_length_one (a b : ℝ) :
    calculate_total_length a b 1 = ((b - a) / 2) * (integrand a + integrand b) :=
  length_one_eq_trapezoid a b

/-- The checked variant never meets the undefined division: it returns the value of
`calculate_total_length` for every count. -/
theorem calculate_total_length_checked_eq (a b : ℝ) (n : Int) :
    calculate_total_length_checked a b n = some (calculate_total_length a b n) := by
  unfold calculate_total_length_checked calculate_total_length checked_div
  split_ifs with h0 h1
  · rfl
  · omega
  · rfl

/-- C5: for every segment count `n ≤ 0` (in particular `n = 0`) the result is exactly `0`,
and the division `(b - a)/n` is not evaluated: the variant in which that division is
undefined at `n = 0` still returns `0`. -/
theorem calculate_total_length_nonpos (a b : ℝ) (n : Int) (hn : n ≤ 0) :
    calculate_total_length a b n = 0 ∧ calculate_total_length_checked a b n = some 0 := by
  unfold calculate_total_length_checked calculate_total_length
  rw [if_pos hn, if_pos hn]
  norm_num

theorem calculate_total_length_nonpos_witness :
    (0 : Int) ≤ 0 ∧ calculate_total_length 3 7 0 = 0 ∧
      calculate_total_length_checked 3 7 0 = some 0 :=
  ⟨le_rfl, calculate_total_length_nonpos 3 7 0 le_rfl⟩

/-- What `simpson_one_third` returns for a zero count: both loops are skipped and the two
end-point samples coincide. -/
theorem simpson_one_third_zero (a h : ℝ) :
    simpson_one_third a 0 h = (h / 3) * (2 * integrand a) := by
  unfold simpson_one_third
  simp only []
  rw [simpson_loop_unfold, if_neg (by decide), simpson_loop_unfold, if_neg (by decide)]
  have e : a + ((0 : Int) : ℝ) * h = a := by simp
  have z : (0.0 : ℝ) = 0 := by norm_num
  have t : (3.0 : ℝ) = 3 := by norm_num
  rw [e, z, t]
  ring

theorem one_le_integrand (x : ℝ) : 1 ≤ integrand x := by
  unfold integrand
  simp only []
  rw [Real.one_le_sqrt]
  nlinarith [sq_nonneg (2 * Real.cos x + 0.5)]

/-- C6 fails as stated: `simpson_one_third(0, 0, 1)` is not `0`. -/
theorem simpson_one_third_zero_count_ne_zero : ¬ (simpson_one_third 0 0 1 = 0) := by
  rw [simpson_one_third_zero]
  have := one_le_integrand 0
  intro h
  nlinarith

/-- C6 (amended): `simpson_one_third(a, 0, h)` returns `(h/3) * 2 * integrand(a)`, which is
`0` exactly when `h = 0`. -/
theorem simpson_one_third_zero_count (a h : ℝ) :
    simpson_one_third a 0 h = (h / 3) * (2 * integrand a) ∧
      (simpson_one_third a 0 h = 0 ↔ h = 0) := by
  refine ⟨simpson_one_third_zero a h, ?_⟩
  rw [simpson_one_third_zero]
  have := one_le_integrand a
  constructor
  · intro h0
    have h1 : h * integrand a = 0 := by linarith
    rcases mul_eq_zero.mp h1 with h2 | h2
    · exact h2
    · linarith
  · intro h0
    rw [h0]
    ring

/-! ## The cosine polynomial and its remainder -/

/-- Even and odd powers of `± x * I` pair up to the real cosine polynomial. -/
theorem exp_series_pair (x : ℝ) (K : Nat) :
    ∑ m in Finset.range (2 * K), ((x : ℂ) * Complex.I) ^ m / (m.factorial : ℂ)
      + ∑ m in Finset.range (2 * K), (-((x : ℂ) * Complex.I)) ^ m / (m.factorial : ℂ)
      = 2 * ((∑ k in Finset.range K, (-1 : ℝ) ^ k * x ^ (2 * k) / ((2 * k).factorial : ℝ) : ℝ) : ℂ) := by
  induction K with
  | zero => simp
  | succ K ih =>
    rw [show 2 * (K + 1) = 2 * K + 1 + 1 by ring, Finset.sum_range_succ, Finset.sum_range_succ,
      Finset.sum_range_succ (fun m => (-((x : ℂ) * Complex.I)) ^ m / (m.factorial : ℂ)),
      Finset.sum_range_succ (fun m => (-((x : ℂ) * Complex.I)) ^ m / (m.factorial : ℂ)),
      Finset.sum_range_succ (fun k => (-1 : ℝ) ^ k * x ^ (2 * k) / ((2 * k).factorial : ℝ))]
    have e1 : (-((x : ℂ) * Complex.I)) ^ (2 * K) = ((x : ℂ) * Complex.I) ^ (2 * K) :=
      Even.neg_pow (even_two_mul K) _
    have e2 : (-((x : ℂ) * Complex.I)) ^ (2 * K + 1) = -((x : ℂ) * Complex.I) ^ (2 * K + 1) :=
      Odd.neg_pow (odd_two_mul_add_one K) _
    have e3 : ((x : ℂ) * Complex.I) ^ (2 * K) = ((-1 : ℝ) ^ K * x ^ (2 * K) : ℝ) := by
      rw [mul_pow, pow_mul Complex.I, Complex.I_sq]
      push_cast
      ring
    rw [e1, e2, e3]
    push_cast
    push_cast at ih
    linear_combination ih

/-- Remainder of the cosine polynomial of degree `2K - 2`, valid while `|x| ≤ K + 1/2`. -/
theorem cos_series_bound (x : ℝ) (K : Nat) (hx : |x| / ((2 * K : Nat).succ : ℝ) ≤ 1 / 2) :
    |Real.cos x - ∑ k in Finset.range K, (-1 : ℝ) ^ k * x ^ (2 * k) / ((2 * k).factorial : ℝ)|
      ≤ 2 * (|x| ^ (2 * K) / ((2 * K).factorial : ℝ)) := by
  have a1 : Complex.abs ((x : ℂ) * Complex.I) = |x| := by simp
  have a2 : Complex.abs (-((x : ℂ) * Complex.I)) = |x| := by simp
  have h1 := Complex.exp_bound' (x := (x : ℂ) * Complex.I) (n := 2 * K) (by rw [a1]; exact hx)
  have h2 := Complex.exp_bound' (x := -((x : ℂ) * Complex.I)) (n := 2 * K) (by rw [a2]; exact hx)
  rw [a1] at h1
  rw [a2] at h2
  have key : ((Real.cos x - ∑ k in Finset.range K,
      (-1 : ℝ) ^ k * x ^ (2 * k) / ((2 * k).factorial : ℝ) : ℝ) : ℂ) =
      ((Complex.exp ((x : ℂ) * Complex.I)
          - ∑ m in Finset.range (2 * K), ((x : ℂ) * Complex.I) ^ m / (m.factorial : ℂ))
        + (Complex.exp (-((x : ℂ) * Complex.I))
          - ∑ m in Finset.range (2 * K), (-((x : ℂ) * Complex.I)) ^ m / (m.factorial : ℂ))) / 2 := by
    have hp := exp_series_pair x K
    rw [Complex.ofReal_sub, Complex.ofReal_cos, Complex.cos, neg_mul]
    linear_combination ((1 : ℂ) / 2) * hp
  rw [← Complex.abs_ofReal, key, map_div₀]
  have h3 := Complex.abs.add_le
    (Complex.exp ((x : ℂ) * Complex.I)
          - ∑ m in Finset.range (2 * K), ((x : ℂ) * Complex.I) ^ m / (m.factorial : ℂ))
    (Complex.exp (-((x : ℂ) * Complex.I))
          - ∑ m in Finset.range (2 * K), (-((x : ℂ) * Complex.I)) ^ m / (m.factorial : ℂ))
  have h4 : Complex.abs (2 : ℂ) = 2 := by simp
  rw [h4, div_le_iff₀ (by norm_num)]
  linarith

/-! ## Soundness of the certified evaluator -/

theorem nat_div_eq (a b : Nat) : Nat.div a b = a / b := rfl

theorem nat_mod_eq (a b : Nat) : Nat.mod a b = a % b := rfl

theorem cast_floor_le (m n : Nat) : ((Nat.div m n : Nat) : ℝ) ≤ (m : ℝ) / (n : ℝ) := by
  rw [nat_div_eq]
  exact Nat.cast_div_le

theorem lt_cast_floor_succ (m n : Nat) (hn : 0 < n) :
    (m : ℝ) / (n : ℝ) < ((Nat.div m n : Nat) : ℝ) + 1 := by
  have hn' : (0 : ℝ) < (n : ℝ) := by exact_mod_cast hn
  rw [nat_div_eq, div_lt_iff₀ hn']
  have h2 : (m : ℝ) < (n : ℝ) * (((m / n : Nat) : ℝ) + 1) := by
    exact_mod_cast Nat.lt_mul_div_succ m hn
  linarith

theorem cast_abs_diff (a b : Nat) :
    ((Nat.add (Nat.sub a b) (Nat.sub b a) : Nat) : ℝ) = |(a : ℝ) - (b : ℝ)| := by
  simp only [Nat.add_eq, Nat.sub_eq]
  rcases le_total a b with h | h
  · have h' : (a : ℝ) ≤ (b : ℝ) := by exact_mod_cast h
    rw [Nat.sub_eq_zero_of_le h, zero_add, Nat.cast_sub h, abs_of_nonpos (by linarith)]
    ring
  · have h' : (b : ℝ) ≤ (a : ℝ) := by exact_mod_cast h
    rw [Nat.sub_eq_zero_of_le h, add_zero, Nat.cast_sub h, abs_of_nonneg (by linarith)]

theorem cast_monus_le (a b : Nat) (y : ℝ) (hy : 0 ≤ y) (h : (a : ℝ) - (b : ℝ) ≤ y) :
    ((Nat.sub a b : Nat) : ℝ) ≤ y := by
  simp only [Nat.sub_eq]
  rcases le_total a b with h1 | h1
  · rw [Nat.sub_eq_zero_of_le h1]
    simpa using hy
  · rw [Nat.cast_sub h1]
    exact h

theorem sqrt_lo_le (v : Nat) : ((sqrt_lo v : Nat) : ℝ) ≤ Real.sqrt (v : ℝ) := by
  unfold sqrt_lo
  simp only []
  cases hb : Nat.ble (Nat.mul (Nat.sub (newton_sqrt v) 2) (Nat.sub (newton_sqrt v) 2)) v with
  | false => simp
  | true =>
    simp only [cond_true]
    have h1 := Nat.le_of_ble_eq_true hb
    simp only [Nat.mul_eq] at h1
    apply Real.le_sqrt_of_sq_le
    rw [sq]
    exact_mod_cast h1

theorem le_sqrt_hi (v : Nat) : Real.sqrt (v : ℝ) ≤ ((sqrt_hi v : Nat) : ℝ) := by
  unfold sqrt_hi
  simp only []
  cases hb : Nat.ble v (Nat.mul (Nat.add (newton_sqrt v) 2) (Nat.add (newton_sqrt v) 2)) with
  | false =>
    simp only [cond_false, Nat.succ_eq_add_one]
    rw [Real.sqrt_le_left (by positivity)]
    push_cast
    nlinarith [Nat.cast_nonneg (α := ℝ) v]
  | true =>
    simp only [cond_true]
    have h1 := Nat.le_of_ble_eq_true hb
    simp only [Nat.mul_eq] at h1
    rw [Real.sqrt_le_left (by positivity), sq]
    exact_mod_cast h1

set_option maxHeartbeats 4000000 in
set_option maxRecDepth 100000 in
/-- The degree-42 cosine polynomial at `p/q`, as the exact quotient the evaluator uses. -/
theorem cos_poly_exact (p q : Nat) (hq : 0 < q) :
    ∑ k in Finset.range 22,
        (-1 : ℝ) ^ k * ((p : ℝ) / (q : ℝ)) ^ (2 * k) / ((2 * k).factorial : ℝ) =
      (((q * q : Nat) : ℝ) * (cos_even_num (p * p * (p * p)) (q * q * (q * q)) : ℝ)
          - ((p * p : Nat) : ℝ) * (cos_odd_num (p * p * (p * p)) (q * q * (q * q)) : ℝ))
        / ((1405006117752879898543142606244511569936384000000000 * ((q * q) *
            (q * q * (q * q)) ^ 10) : Nat) : ℝ) := by
  have hq' : (0 : ℝ) < (q : ℝ) := by exact_mod_cast hq
  have hden : (0 : ℝ) < ((1405006117752879898543142606244511569936384000000000 * ((q * q) *
            (q * q * (q * q)) ^ 10) : Nat) : ℝ) :=
    Nat.cast_pos.mpr (Nat.mul_pos (by norm_num) (by positivity))
  rw [eq_div_iff hden.ne']
  obtain ⟨x, hx⟩ : ∃ x : ℝ, (p : ℝ) = x * (q : ℝ) := ⟨(p : ℝ) / (q : ℝ), by field_simp⟩
  have hxq : (p : ℝ) / (q : ℝ) = x := by rw [hx]; field_simp
  unfold cos_even_num cos_odd_num
  simp only [Nat.add_eq, Nat.mul_eq, Nat.pow_eq]
  push_cast
  rw [hxq, hx]
  simp only [Finset.sum_range_succ, Finset.sum_range_zero]
  norm_num [Nat.factorial]
  ring

/-- Enclosure of `SC * |2 cos(p/q) + 1/2|`. -/
theorem deriv_enclosure (p q : Nat) (hq : 0 < q) (hp : p ≤ 22 * q) :
    ((Nat.sub (deriv_abs_floor (Nat.mul p p) (Nat.mul q q))
        (deriv_rem (Nat.mul p p) (Nat.mul q q)) : Nat) : ℝ)
      ≤ (SC : ℝ) * |2 * Real.cos ((p : ℝ) / (q : ℝ)) + 0.5| ∧
    (SC : ℝ) * |2 * Real.cos ((p : ℝ) / (q : ℝ)) + 0.5|
      ≤ ((Nat.add (Nat.succ (deriv_abs_floor (Nat.mul p p) (Nat.mul q q)))
        (deriv_rem (Nat.mul p p) (Nat.mul q q)) : Nat) : ℝ) := by
  have hq' : (0 : ℝ) < (q : ℝ) := by exact_mod_cast hq
  have hp' : (p : ℝ) ≤ 22 * (q : ℝ) := by exact_mod_cast hp
  have hS : (0 : ℝ) < (SC : ℝ) := by unfold SC; norm_num
  set x : ℝ := (p : ℝ) / (q : ℝ) with hx
  have hx0 : 0 ≤ x := div_nonneg (Nat.cast_nonneg p) hq'.le
  have hx22 : x ≤ 22 := by rw [hx, div_le_iff₀ hq']; exact hp'
  -- the remainder of the polynomial
  have hcos := cos_series_bound x 22 (by
    rw [abs_of_nonneg hx0]
    norm_num
    linarith)
  rw [abs_of_nonneg hx0, cos_poly_exact p q hq] at hcos
  -- names for the integer quantities
  set E : Nat := cos_even_num (p * p * (p * p)) (q * q * (q * q)) with hE
  set O : Nat := cos_odd_num (p * p * (p * p)) (q * q * (q * q)) with hO
  set den : Nat := 1405006117752879898543142606244511569936384000000000 * ((q * q) *
            (q * q * (q * q)) ^ 10) with hden
  have hden0 : 0 < den := by rw [hden]; positivity
  have hden' : (0 : ℝ) < (den : ℝ) := by exact_mod_cast hden0
  set C : ℝ := (((q * q : Nat) : ℝ) * (E : ℝ) - ((p * p : Nat) : ℝ) * (O : ℝ)) / (den : ℝ) with hC
  set pos : Nat := 4 * ((q * q) * E) + den with hpos
  set neg : Nat := 4 * ((p * p) * O) with hneg
  -- the floor
  have hfl : deriv_abs_floor (Nat.mul p p) (Nat.mul q q) =
      Nat.div (SC * (Nat.add (Nat.sub pos neg) (Nat.sub neg pos))) (2 * den) := by
    unfold deriv_abs_floor
    simp only [Nat.mul_eq, Nat.add_eq, Nat.pow_eq, Nat.sub_eq]
  have hval : (SC : ℝ) * |2 * C + 0.5| =
      ((SC * (Nat.add (Nat.sub pos neg) (Nat.sub neg pos)) : Nat) : ℝ) / ((2 * den : Nat) : ℝ) := by
    rw [Nat.cast_mul, cast_abs_diff, hpos, hneg]
    push_cast
    rw [mul_div_assoc]
    congr 1
    rw [eq_div_iff (by positivity), ← abs_of_pos (show (0 : ℝ) < 2 * (den : ℝ) by positivity),
      ← abs_mul]
    congr 1
    rw [hC]
    field_simp
    ring
  have hU1 := cast_floor_le (SC * (Nat.add (Nat.sub pos neg) (Nat.sub neg pos))) (2 * den)
  have hU2 := lt_cast_floor_succ (SC * (Nat.add (Nat.sub pos neg) (Nat.sub neg pos))) (2 * den)
    (by omega)
  rw [← hfl, ← hval] at hU1 hU2
  -- the remainder
  have hrem : deriv_rem (Nat.mul p p) (Nat.mul q q) =
      Nat.succ (Nat.div (4 * SC * (p * p) ^ 22)
        (2658271574788448768043625811014615890319638528000000000 * (q * q) ^ 22)) := by
    unfold deriv_rem
    simp only [Nat.mul_eq, Nat.pow_eq]
  have hR := lt_cast_floor_succ (4 * SC * (p * p) ^ 22)
    (2658271574788448768043625811014615890319638528000000000 * (q * q) ^ 22) (by positivity)
  have hRv : (SC : ℝ) * (2 * (2 * (x ^ (2 * 22) / ((2 * 22).factorial : ℝ)))) =
      ((4 * SC * (p * p) ^ 22 : Nat) : ℝ) /
        ((2658271574788448768043625811014615890319638528000000000 * (q * q) ^ 22 : Nat) : ℝ) := by
    have hf : ((2 * 22).factorial : ℝ) = 2658271574788448768043625811014615890319638528000000000 := by
      norm_num [Nat.factorial]
    rw [hf, hx]
    push_cast
    field_simp
    ring
  have hR' : (SC : ℝ) * (2 * (2 * (x ^ (2 * 22) / ((2 * 22).factorial : ℝ))))
      ≤ ((deriv_rem (Nat.mul p p) (Nat.mul q q) : Nat) : ℝ) := by
    rw [hrem, hRv, Nat.succ_eq_add_one]
    push_cast
    push_cast at hR
    linarith
  -- combine
  have htri1 : |2 * C + 0.5| - 2 * |Real.cos x - C| ≤ |2 * Real.cos x + 0.5| := by
    have := abs_sub_abs_le_abs_sub (2 * C + 0.5) (2 * Real.cos x + 0.5)
    have e : |2 * C + 0.5 - (2 * Real.cos x + 0.5)| = 2 * |Real.cos x - C| := by
      rw [show 2 * C + 0.5 - (2 * Real.cos x + 0.5) = -(2 * (Real.cos x - C)) by ring, abs_neg,
        abs_mul, abs_of_pos (by norm_num : (0 : ℝ) < 2)]
    linarith
  have htri2 : |2 * Real.cos x + 0.5| ≤ |2 * C + 0.5| + 2 * |Real.cos x - C| := by
    have := abs_sub_abs_le_abs_sub (2 * Real.cos x + 0.5) (2 * C + 0.5)
    have e : |2 * Real.cos x + 0.5 - (2 * C + 0.5)| = 2 * |Real.cos x - C| := by
      rw [show 2 * Real.cos x + 0.5 - (2 * C + 0.5) = 2 * (Real.cos x - C) by ring,
        abs_mul, abs_of_pos (by norm_num : (0 : ℝ) < 2)]
    linarith
  have hRr : (SC : ℝ) * (2 * |Real.cos x - C|)
      ≤ ((deriv_rem (Nat.mul p p) (Nat.mul q q) : Nat) : ℝ) := by
    refine le_trans ?_ hR'
    exact mul_le_mul_of_nonneg_left (by linarith) hS.le
  have hm1 := mul_le_mul_of_nonneg_left htri1 hS.le
  have hm2 := mul_le_mul_of_nonneg_left htri2 hS.le
  rw [mul_sub] at hm1
  rw [mul_add] at hm2
  constructor
  · apply cast_monus_le _ _ _ (by positivity)
    linarith
  · rw [Nat.add_eq, Nat.succ_eq_add_one]
    push_cast
    linarith

/-- Enclosure of `SC * integrand (p/q)` by the evaluator, for `0 ≤ p/q ≤ 22`. -/
theorem integrand_enclosure (p q : Nat) (hq : 0 < q) (hp : p ≤ 22 * q) :
    ((integrand_lo p q : Nat) : ℝ) ≤ (SC : ℝ) * integrand ((p : ℝ) / (q : ℝ)) ∧
      (SC : ℝ) * integrand ((p : ℝ) / (q : ℝ)) ≤ ((integrand_hi p q : Nat) : ℝ) := by
  have hS : (0 : ℝ) < (SC : ℝ) := by unfold SC; norm_num
  obtain ⟨h1, h2⟩ := deriv_enclosure p q hq hp
  have hval : (SC : ℝ) * integrand ((p : ℝ) / (q : ℝ)) =
      Real.sqrt ((SC : ℝ) * (SC : ℝ)
        + ((SC : ℝ) * |2 * Real.cos ((p : ℝ) / (q : ℝ)) + 0.5|) ^ 2) := by
    unfold integrand
    simp only []
    rw [mul_pow, sq_abs, ← Real.sqrt_mul_self hS.le, ← Real.sqrt_mul (by positivity)]
    congr 1
    rw [Real.sqrt_mul_self hS.le]
    ring
  rw [hval]
  constructor
  · unfold integrand_lo
    simp only []
    refine le_trans (sqrt_lo_le _) (Real.sqrt_le_sqrt ?_)
    simp only [Nat.add_eq, Nat.mul_eq] at h1 ⊢
    push_cast
    have h0 : (0 : ℝ) ≤ ((Nat.sub (deriv_abs_floor (p * p) (q * q))
        (deriv_rem (p * p) (q * q)) : Nat) : ℝ) := Nat.cast_nonneg _
    have h3 := pow_le_pow_left₀ h0 h1 2
    rw [sq] at h3
    linarith
  · unfold integrand_hi
    simp only []
    refine le_trans (Real.sqrt_le_sqrt ?_) (le_sqrt_hi _)
    simp only [Nat.add_eq, Nat.mul_eq] at h2 ⊢
    push_cast
    push_cast at h2
    have h0 : (0 : ℝ) ≤ (SC : ℝ) * |2 * Real.cos ((p : ℝ) / (q : ℝ)) + 0.5| := by positivity
    have h3 := pow_le_pow_left₀ h0 h2 2
    rw [sq ((deriv_abs_floor (p * p) (q * q) : ℝ) + 1 + (deriv_rem (p * p) (q * q) : ℝ))] at h3
    linarith

/-! ## The node weights of `calculate_total_length` -/

/-- The weight table `quad_weight` with its tests read as propositions. -/
theorem quad_weight_eq (n i : Nat) :
    quad_weight n i =
      if i ≤ n then
        if n % 2 = 0 then (if i = 0 ∨ i = n then 8 else if i % 2 = 1 then 32 else 16)
        else if n = 1 then 12
        else if i + 3 < n then (if i = 0 then 8 else if i % 2 = 1 then 32 else 16)
        else if i + 3 = n then (if n = 3 then 9 else 17)
        else if i = n then 9 else 27
      else 0 := by
  unfold quad_weight
  simp only [cond_eq_if, Nat.ble_eq, Nat.beq_eq, Nat.blt_eq, nat_mod_eq, Nat.add_eq,
    Bool.or_eq_true, decide_eq_true_eq]

/-- For an even count the node weights are eight times the Simpson weights. -/
theorem quad_weight_even (n i : Nat) (hn : n % 2 = 0) (hi : i ≤ n) :
    (quad_weight n i : ℝ) = 8 * simpson_weight n i := by
  rw [quad_weight_eq, if_pos hi, if_pos hn]
  unfold simpson_weight
  split_ifs <;> norm_num

/-- Below the trailing block of an odd count the node weights are eight times the Simpson
weights of the leading `n - 3` segments, except at the shared node. -/
theorem quad_weight_odd_lead (m i : Nat) (hm : m % 2 = 0) (hi : i < m) :
    (quad_weight (m + 3) i : ℝ) = 8 * simpson_weight m i := by
  rw [quad_weight_eq, if_pos (by omega), if_neg (by omega), if_neg (by omega), if_pos (by omega)]
  unfold simpson_weight
  have : i ≠ m := by omega
  simp only [this, or_false]
  split_ifs <;> norm_num

/-- The length for one segment, as a weighted node sum. -/
theorem calculate_total_length_nodes_one (a b : ℝ) :
    calculate_total_length a b ((1 : Nat) : Int) =
      ((b - a) / ((1 : Nat) : ℝ) / 24) * ∑ i in Finset.range (1 + 1),
        (quad_weight 1 i : ℝ) * integrand (a + (i : ℝ) * ((b - a) / ((1 : Nat) : ℝ))) := by
  rw [Nat.cast_one, length_one_eq_trapezoid, Finset.sum_range_succ, Finset.sum_range_succ,
    Finset.sum_range_zero]
  have w0 : quad_weight 1 0 = 12 := by decide
  have w1 : quad_weight 1 1 = 12 := by decide
  rw [w0, w1]
  have e : a + ((1 : Nat) : ℝ) * ((b - a) / ((1 : Nat) : ℝ)) = b := by
    push_cast; ring
  have e0 : a + ((0 : Nat) : ℝ) * ((b - a) / ((1 : Nat) : ℝ)) = a := by
    push_cast; ring
  rw [e, e0]
  push_cast
  ring

/-- Every positive segment count: `calculate_total_length` is `h/24` times the sum of the
samples at the nodes `a + i*h`, `i = 0..n`, against the weights `quad_weight n i`. -/
theorem calculate_total_length_nodes (a b : ℝ) (n : Nat) (hn : 1 ≤ n) :
    calculate_total_length a b (n : Int) =
      ((b - a) / (n : ℝ) / 24) * ∑ i in Finset.range (n + 1),
        (quad_weight n i : ℝ) * integrand (a + (i : ℝ) * ((b - a) / (n : ℝ))) := by
  rcases Nat.even_or_odd n with he | ho
  · -- even count
    have h2 : n % 2 = 0 := Nat.even_iff.mp he
    rw [length_even_eq_composite a b n (by omega) (by omega)]
    unfold composite_simpson_sum
    rw [Int.toNat_ofNat, Int.cast_natCast]
    have hs : ∑ i in Finset.range (n + 1),
        (quad_weight n i : ℝ) * integrand (a + (i : ℝ) * ((b - a) / (n : ℝ))) =
        8 * ∑ i in Finset.range (n + 1),
          simpson_weight n i * integrand (a + (i : ℝ) * ((b - a) / (n : ℝ))) := by
      rw [Finset.mul_sum]
      refine Finset.sum_congr rfl (fun i hi => ?_)
      rw [quad_weight_even n i h2 (by simpa [Nat.lt_succ_iff] using hi)]
      ring
    rw [hs]
    ring
  · have h2 : n % 2 = 1 := Nat.odd_iff.mp ho
    by_cases h1 : n = 1
    · subst h1
      exact calculate_total_length_nodes_one a b
    · -- odd count, at least 3
      obtain ⟨m, rfl⟩ : ∃ m, n = m + 3 := ⟨n - 3, by omega⟩
      have hm : m % 2 = 0 := by omega
      rw [length_odd_eq_split a b _ (by push_cast; omega) (by omega)]
      have hcast : (((m + 3 : Nat) : Int) : ℝ) = ((m + 3 : Nat) : ℝ) := Int.cast_natCast _
      rw [hcast]
      set h : ℝ := (b - a) / ((m + 3 : Nat) : ℝ) with hh
      have hx0 : a + (((m + 3 : Nat) : ℝ) - 3) * h = a + (m : ℝ) * h := by
        push_cast; ring
      rw [hx0]
      rw [Finset.sum_range_succ, Finset.sum_range_succ, Finset.sum_range_succ,
        Finset.sum_range_succ,
        Finset.sum_congr rfl (fun i hi => by
          rw [quad_weight_odd_lead m i hm (by simpa using hi)])]
      have w1 : quad_weight (m + 3) (m + 1) = 27 := by
        rw [quad_weight_eq, if_pos (by omega), if_neg (by omega), if_neg (by omega),
          if_neg (by omega), if_neg (by omega), if_neg (by omega)]
      have w2 : quad_weight (m + 3) (m + 2) = 27 := by
        rw [quad_weight_eq, if_pos (by omega), if_neg (by omega), if_neg (by omega),
          if_neg (by omega), if_neg (by omega), if_neg (by omega)]
      have w3 : quad_weight (m + 3) (m + 3) = 9 := by
        rw [quad_weight_eq, if_pos (by omega), if_neg (by omega), if_neg (by omega),
          if_neg (by omega), if_neg (by omega), if_pos rfl]
      rw [w1, w2, w3]
      unfold three_eighths_sum
      have e1 : a + (m : ℝ) * h + h = a + ((m + 1 : Nat) : ℝ) * h := by push_cast; ring
      have e2 : a + (m : ℝ) * h + 2 * h = a + ((m + 2 : Nat) : ℝ) * h := by push_cast; ring
      have e3 : a + (m : ℝ) * h + 3 * h = a + ((m + 3 : Nat) : ℝ) * h := by push_cast; ring
      rw [e1, e2, e3]
      by_cases h0 : m = 0
      · subst h0
        have w0 : quad_weight (0 + 3) 0 = 9 := by decide
        rw [w0, if_pos (by norm_num)]
        simp only [Finset.range_zero, Finset.sum_empty]
        push_cast
        ring
      · have w0 : quad_weight (m + 3) m = 17 := by
          rw [quad_weight_eq, if_pos (by omega), if_neg (by omega), if_neg (by omega),
            if_neg (by omega), if_pos rfl, if_neg (by omega)]
        rw [w0, if_neg (by push_cast; omega)]
        have ht : (((m + 3 : Nat) : Int) - 3).toNat = m := by omega
        rw [ht]
        unfold composite_simpson_sum
        rw [Finset.sum_range_succ]
        have ws : simpson_weight m m = 1 := by unfold simpson_weight; simp
        rw [ws]
        simp only [← Finset.mul_sum, mul_assoc]
        push_cast
        ring

/-! ## Enclosures of the length on `[0, 10]` -/

theorem block_sum_eq (f : Nat → Nat) (d s : Nat) :
    block_sum f d s = ∑ i in Finset.range (2 ^ d), f (s + i) := by
  induction d generalizing s with
  | zero => simp [block_sum]
  | succ d ih =>
    rw [block_sum, ih, ih, Nat.add_eq, Nat.add_eq, Nat.pow_eq, pow_succ, mul_two,
      Finset.sum_range_add]
    simp only [add_assoc]

/-- A sum over `2^d` indices of a function that vanishes beyond `n` is the sum up to `n`. -/
theorem block_sum_cut (f : Nat → Nat) (n d : Nat) (hd : n + 1 ≤ 2 ^ d) :
    block_sum (fun i => bif Nat.ble i n then f i else 0) d 0
      = ∑ i in Finset.range (n + 1), f i := by
  rw [block_sum_eq]
  obtain ⟨k, hk⟩ : ∃ k, 2 ^ d = (n + 1) + k := ⟨2 ^ d - (n + 1), by omega⟩
  rw [hk, Finset.sum_range_add]
  have h1 : ∑ i in Finset.range (n + 1), (bif Nat.ble (0 + i) n then f (0 + i) else 0)
      = ∑ i in Finset.range (n + 1), f i := by
    refine Finset.sum_congr rfl (fun i hi => ?_)
    have hi' : i ≤ n := by simpa [Nat.lt_succ_iff] using hi
    rw [zero_add, Nat.ble_eq_true_of_le hi', cond_true]
  have h2 : ∑ i in Finset.range k,
      (bif Nat.ble (0 + (n + 1 + i)) n then f (0 + (n + 1 + i)) else 0) = 0 := by
    refine Finset.sum_eq_zero (fun i _ => ?_)
    have hb : Nat.ble (0 + (n + 1 + i)) n = false := by
      rw [← Bool.not_eq_true, Nat.ble_eq]
      omega
    rw [hb, cond_false]
  rw [h1, h2, add_zero]

/-- The evaluator's weighted sums enclose `SC` times the node sum of
`calculate_total_length 0 10 n`. -/
theorem weighted_enclosure (n d : Nat) (hn : 1 ≤ n) (hd : n + 1 ≤ 2 ^ d) :
    ((weighted_lo n d : Nat) : ℝ)
        ≤ (SC : ℝ) * (24 * (n : ℝ) / 10) * calculate_total_length 0 10 (n : Int) ∧
      (SC : ℝ) * (24 * (n : ℝ) / 10) * calculate_total_length 0 10 (n : Int)
        ≤ ((weighted_hi n d : Nat) : ℝ) := by
  have hn' : (0 : ℝ) < (n : ℝ) := by exact_mod_cast hn
  have hnode : ∀ i : Nat, (0 : ℝ) + (i : ℝ) * ((10 - 0) / (n : ℝ))
      = ((10 * i : Nat) : ℝ) / (n : ℝ) := by
    intro i
    push_cast
    field_simp
    ring
  have hL : (SC : ℝ) * (24 * (n : ℝ) / 10) * calculate_total_length 0 10 (n : Int) =
      ∑ i in Finset.range (n + 1),
        (quad_weight n i : ℝ) * ((SC : ℝ) * integrand (((10 * i : Nat) : ℝ) / (n : ℝ))) := by
    rw [calculate_total_length_nodes 0 10 n hn]
    simp only [hnode]
    rw [Finset.mul_sum, Finset.mul_sum]
    refine Finset.sum_congr rfl (fun i _ => ?_)
    field_simp
    ring
  rw [hL]
  constructor
  · unfold weighted_lo
    rw [block_sum_cut _ n d hd]
    push_cast
    refine Finset.sum_le_sum (fun i hi => ?_)
    have hi' : i ≤ n := by simpa [Nat.lt_succ_iff] using hi
    simp only [Nat.mul_eq]
    push_cast
    exact mul_le_mul_of_nonneg_left
      (by simpa using (integrand_enclosure (10 * i) n (by omega) (by omega)).1)
      (Nat.cast_nonneg _)
  · unfold weighted_hi
    rw [block_sum_cut _ n d hd]
    push_cast
    refine Finset.sum_le_sum (fun i hi => ?_)
    have hi' : i ≤ n := by simpa [Nat.lt_succ_iff] using hi
    simp only [Nat.mul_eq]
    push_cast
    exact mul_le_mul_of_nonneg_left
      (by simpa using (integrand_enclosure (10 * i) n (by omega) (by omega)).2)
      (Nat.cast_nonneg _)

/-- Decimal bounds of `calculate_total_length 0 10 n` from two evaluations in integers. -/
theorem length_bounds_of_eval (n d lo hi : Nat) (hn : 1 ≤ n) (hd : n + 1 ≤ 2 ^ d)
    (hev : lo * (24 * n * SC) ≤ weighted_lo n d * (10 * 10 ^ 8) ∧
      weighted_hi n d * (10 * 10 ^ 8) ≤ hi * (24 * n * SC)) :
    (lo : ℝ) / 10 ^ 8 ≤ calculate_total_length 0 10 (n : Int) ∧
      calculate_total_length 0 10 (n : Int) ≤ (hi : ℝ) / 10 ^ 8 := by
  have hn' : (0 : ℝ) < (n : ℝ) := by exact_mod_cast hn
  have hS : (0 : ℝ) < (SC : ℝ) := by unfold SC; norm_num
  obtain ⟨h1, h2⟩ := weighted_enclosure n d hn hd
  obtain ⟨hlo, hhi⟩ := hev
  have hlo' : (lo : ℝ) * (24 * (n : ℝ) * (SC : ℝ))
      ≤ ((weighted_lo n d : Nat) : ℝ) * (10 * 10 ^ 8) := by exact_mod_cast hlo
  have hhi' : ((weighted_hi n d : Nat) : ℝ) * (10 * 10 ^ 8)
      ≤ (hi : ℝ) * (24 * (n : ℝ) * (SC : ℝ)) := by exact_mod_cast hhi
  have hpos : (0 : ℝ) < 24 * (n : ℝ) * (SC : ℝ) := by positivity
  constructor
  · rw [div_le_iff₀ (by positivity)]
    have : (lo : ℝ) * (24 * (n : ℝ) * (SC : ℝ))
        ≤ (calculate_total_length 0 10 (n : Int) * 10 ^ 8) * (24 * (n : ℝ) * (SC : ℝ)) := by
      calc (lo : ℝ) * (24 * (n : ℝ) * (SC : ℝ))
          ≤ ((weighted_lo n d : Nat) : ℝ) * (10 * 10 ^ 8) := hlo'
        _ ≤ ((SC : ℝ) * (24 * (n : ℝ) / 10) * calculate_total_length 0 10 (n : Int))
              * (10 * 10 ^ 8) := mul_le_mul_of_nonneg_right h1 (by positivity)
        _ = (calculate_total_length 0 10 (n : Int) * 10 ^ 8) * (24 * (n : ℝ) * (SC : ℝ)) := by
            ring
    exact le_of_mul_le_mul_right this hpos
  · rw [le_div_iff₀ (by positivity)]
    have : (calculate_total_length 0 10 (n : Int) * 10 ^ 8) * (24 * (n : ℝ) * (SC : ℝ))
        ≤ (hi : ℝ) * (24 * (n : ℝ) * (SC : ℝ)) := by
      calc (calculate_total_length 0 10 (n : Int) * 10 ^ 8) * (24 * (n : ℝ) * (SC : ℝ))
          = ((SC : ℝ) * (24 * (n : ℝ) / 10) * calculate_total_length 0 10 (n : Int))
              * (10 * 10 ^ 8) := by ring
        _ ≤ ((weighted_hi n d : Nat) : ℝ) * (10 * 10 ^ 8) :=
            mul_le_mul_of_nonneg_right h2 (by positivity)
        _ ≤ (hi : ℝ) * (24 * (n : ℝ) * (SC : ℝ)) := hhi'
    exact le_of_mul_le_mul_right this hpos

/-- The length on `[0, 10]` with 10 segments, to eight decimals. -/
theorem length_10_enclosure :
    17.42553519 ≤ calculate_total_length 0 10 10 ∧
      calculate_total_length 0 10 10 ≤ 17.42553520 := by
  have h := length_bounds_of_eval 10 4 1742553519 1742553520 (by decide) (by decide)
    (by decide!)
  norm_num at h ⊢
  exact h

/-- The length on `[0, 10]` with 100 segments, to eight decimals. -/
theorem length_100_enclosure :
    17.19414064 ≤ calculate_total_length 0 10 100 ∧
      calculate_total_length 0 10 100 ≤ 17.19414065 := by
  have h := length_bounds_of_eval 100 7 1719414064 1719414065 (by decide) (by decide)
    (by decide!)
  norm_num at h ⊢
  exact h

/-- The length on `[0, 10]` with 1000 segments, to eight decimals. -/
theorem length_1000_enclosure :
    17.19413908 ≤ calculate_total_length 0 10 1000 ∧
      calculate_total_length 0 10 1000 ≤ 17.19413909 := by
  have h := length_bounds_of_eval 1000 10 1719413908 1719413909 (by decide) (by decide)
    (by decide!)
  norm_num at h ⊢
  exact h

/-- The length on `[0, 10]` with 1001 segments, to eight decimals. -/
theorem length_1001_enclosure :
    17.19413908 ≤ calculate_total_length 0 10 1001 ∧
      calculate_total_length 0 10 1001 ≤ 17.19413909 := by
  have h := length_bounds_of_eval 1001 10 1719413908 1719413909 (by decide) (by decide)
    (by decide!)
  norm_num at h ⊢
  exact h

/-- The length on `[0, 10]` with 10001 segments, to eight decimals. -/
theorem length_10001_enclosure :
    17.19413908 ≤ calculate_total_length 0 10 10001 ∧
      calculate_total_length 0 10 10001 ≤ 17.19413909 := by
  have h := length_bounds_of_eval 10001 14 1719413908 1719413909 (by decide) (by decide)
    (by decide!)
  norm_num at h ⊢
  exact h

/-! ## Intervals whose nodes fall on multiples of `π` -/

/-- The node weights of `calculate_total_length` add up to `24 * n`. -/
theorem quad_weight_sum (n : Nat) (hn : 1 ≤ n) :
    ∑ i in Finset.range (n + 1), (quad_weight n i : ℝ) = 24 * (n : ℝ) := by
  have hsw : ∀ k : Nat, ∑ i in Finset.range (2 * (k + 1) + 1),
      simpson_weight (2 * (k + 1)) i = 6 * (k : ℝ) + 6 := by
    intro k
    have := simpson_weight_sum (fun _ => (1 : ℝ)) k
    simp only [mul_one, Finset.sum_const, Finset.card_range, nsmul_eq_mul] at this
    rw [this]
    push_cast
    ring
  rcases Nat.even_or_odd n with he | ho
  · have h2 : n % 2 = 0 := Nat.even_iff.mp he
    obtain ⟨k, rfl⟩ : ∃ k, n = 2 * (k + 1) := ⟨n / 2 - 1, by omega⟩
    rw [Finset.sum_congr rfl (fun i hi => quad_weight_even (2 * (k + 1)) i h2
      (by simpa [Nat.lt_succ_iff] using hi)), ← Finset.mul_sum, hsw]
    push_cast
    ring
  · have h2 : n % 2 = 1 := Nat.odd_iff.mp ho
    by_cases h1 : n = 1
    · subst h1
      have w0 : quad_weight 1 0 = 12 := by decide
      have w1 : quad_weight 1 1 = 12 := by decide
      rw [Finset.sum_range_succ, Finset.sum_range_succ, Finset.sum_range_zero, w0, w1]
      norm_num
    · obtain ⟨m, rfl⟩ : ∃ m, n = m + 3 := ⟨n - 3, by omega⟩
      have hm : m % 2 = 0 := by omega
      have w1 : quad_weight (m + 3) (m + 1) = 27 := by
        rw [quad_weight_eq, if_pos (by omega), if_neg (by omega), if_neg (by omega),
          if_neg (by omega), if_neg (by omega), if_neg (by omega)]
      have w2 : quad_weight (m + 3) (m + 2) = 27 := by
        rw [quad_weight_eq, if_pos (by omega), if_neg (by omega), if_neg (by omega),
          if_neg (by omega), if_neg (by omega), if_neg (by omega)]
      have w3 : quad_weight (m + 3) (m + 3) = 9 := by
        rw [quad_weight_eq, if_pos (by omega), if_neg (by omega), if_neg (by omega),
          if_neg (by omega), if_neg (by omega), if_pos rfl]
      rw [Finset.sum_range_succ, Finset.sum_range_succ, Finset.sum_range_succ,
        Finset.sum_range_succ, w1, w2, w3,
        Finset.sum_congr rfl (fun i hi => quad_weight_odd_lead m i hm (by simpa using hi)),
        ← Finset.mul_sum]
      by_cases h0 : m = 0
      · subst h0
        have w0 : quad_weight (0 + 3) 0 = 9 := by decide
        rw [w0]
        simp only [Finset.range_zero, Finset.sum_empty]
        push_cast
        ring
      · obtain ⟨k, rfl⟩ : ∃ k, m = 2 * (k + 1) := ⟨m / 2 - 1, by omega⟩
        have w0 : quad_weight (2 * (k + 1) + 3) (2 * (k + 1)) = 17 := by
          rw [quad_weight_eq, if_pos (by omega), if_neg (by omega), if_neg (by omega),
            if_neg (by omega), if_pos rfl, if_neg (by omega)]
        have hs := hsw k
        rw [Finset.sum_range_succ] at hs
        have ws : simpson_weight (2 * (k + 1)) (2 * (k + 1)) = 1 := by
          unfold simpson_weight; simp
        rw [ws] at hs
        have hs' : ∑ i in Finset.range (2 * (k + 1)), simpson_weight (2 * (k + 1)) i
            = 6 * (k : ℝ) + 5 := by linarith
        rw [w0, hs']
        push_cast
        ring

/-- When the integrand takes one value `c` at every node, the length is `(b - a) * c`. -/
theorem calculate_total_length_const (a b c : ℝ) (n : Nat) (hn : 1 ≤ n)
    (hc : ∀ i : Nat, i ≤ n → integrand (a + (i : ℝ) * ((b - a) / (n : ℝ))) = c) :
    calculate_total_length a b (n : Int) = (b - a) * c := by
  have hn' : (0 : ℝ) < (n : ℝ) := by exact_mod_cast hn
  rw [calculate_total_length_nodes a b n hn,
    Finset.sum_congr rfl (fun i hi => by
      rw [hc i (by simpa [Nat.lt_succ_iff] using hi)]),
    ← Finset.sum_mul, quad_weight_sum n hn]
  field_simp
  ring

theorem integrand_nat_mul_pi (m : Nat) :
    integrand ((m : ℝ) * Real.pi) = Real.sqrt (1 + (2 * (-1 : ℝ) ^ m + 0.5) ^ 2) := by
  have hcos : Real.cos ((m : ℝ) * Real.pi) = (-1 : ℝ) ^ m := by
    simpa using Real.cos_add_nat_mul_pi 0 m
  unfold integrand
  simp only []
  rw [hcos]

/-- On `[0, n * r * 2π]` cut into `n` segments every node is a multiple of `2π`. -/
theorem length_on_period_grid (n r : Nat) (hn : 1 ≤ n) :
    calculate_total_length 0 (((n * r : Nat) : ℝ) * (2 * Real.pi)) (n : Int) =
      (((n * r : Nat) : ℝ) * (2 * Real.pi)) * Real.sqrt (1 + (2 + 0.5) ^ 2) := by
  have hn' : (0 : ℝ) < (n : ℝ) := by exact_mod_cast hn
  rw [calculate_total_length_const 0 _ (Real.sqrt (1 + (2 + 0.5) ^ 2)) n hn, sub_zero]
  intro i _
  have e : (0 : ℝ) + (i : ℝ) * ((((n * r : Nat) : ℝ) * (2 * Real.pi) - 0) / (n : ℝ))
      = ((2 * (i * r) : Nat) : ℝ) * Real.pi := by
    push_cast
    field_simp
    ring
  rw [e, integrand_nat_mul_pi, pow_mul]
  norm_num

/-! ## Numerical claims -/

/-- C7 fails as stated: `calculate_total_length(0, 10, 10001)` is not within `0.001` of
`15.549`. -/
theorem length_10001_not_near_15549 :
    ¬ (|calculate_total_length 0 10 10001 - 15.549| < 0.001) := by
  have h := length_10001_enclosure.1
  intro hlt
  rw [abs_lt] at hlt
  norm_num at h hlt
  linarith [hlt.2]

/-- C7 (amended): `calculate_total_length(0, 10, 10001)` agrees with `17.194` to three
decimal places: `|calculate_total_length(0, 10, 10001) - 17.194| < 0.001`. -/
theorem length_10001_near_17194 :
    |calculate_total_length 0 10 10001 - 17.194| < 0.001 := by
  obtain ⟨h1, h2⟩ := length_10001_enclosure
  rw [abs_lt]
  norm_num at h1 h2 ⊢
  constructor <;> linarith

/-- C8 fails as stated: on the valid interval `[0, 2000π]` the lengths for 10, 100 and 1000
segments coincide, so the first two successive differences are both `0` and do not
strictly decrease. -/
theorem convergence_fails_on_period_grid :
    (0 : ℝ) < 2000 * Real.pi ∧
      ¬ (|calculate_total_length 0 (2000 * Real.pi) 100
            - calculate_total_length 0 (2000 * Real.pi) 10|
          > |calculate_total_length 0 (2000 * Real.pi) 1000
            - calculate_total_length 0 (2000 * Real.pi) 100| ∧
        |calculate_total_length 0 (2000 * Real.pi) 1000
            - calculate_total_length 0 (2000 * Real.pi) 100|
          > |calculate_total_length 0 (2000 * Real.pi) 10001
            - calculate_total_length 0 (2000 * Real.pi) 1000|) := by
  refine ⟨by positivity, ?_⟩
  have e10 : (2000 : ℝ) * Real.pi = ((10 * 100 : Nat) : ℝ) * (2 * Real.pi) := by
    push_cast; ring
  have e100 : (2000 : ℝ) * Real.pi = ((100 * 10 : Nat) : ℝ) * (2 * Real.pi) := by
    push_cast; ring
  have e1000 : (2000 : ℝ) * Real.pi = ((1000 * 1 : Nat) : ℝ) * (2 * Real.pi) := by
    push_cast; ring
  have h10 : calculate_total_length 0 (2000 * Real.pi) 10
      = (2000 * Real.pi) * Real.sqrt (1 + (2 + 0.5) ^ 2) := by
    have := length_on_period_grid 10 100 (by decide)
    rw [← e10] at this
    exact_mod_cast this
  have h100 : calculate_total_length 0 (2000 * Real.pi) 100
      = (2000 * Real.pi) * Real.sqrt (1 + (2 + 0.5) ^ 2) := by
    have := length_on_period_grid 100 10 (by decide)
    rw [← e100] at this
    exact_mod_cast this
  have h1000 : calculate_total_length 0 (2000 * Real.pi) 1000
      = (2000 * Real.pi) * Real.sqrt (1 + (2 + 0.5) ^ 2) := by
    have := length_on_period_grid 1000 1 (by decide)
    rw [← e1000] at this
    exact_mod_cast this
  rw [h10, h100, h1000]
  intro h
  have := h.1
  simp at this

/-- C8 (amended): on the interval `[0, 10]` the successive differences of the lengths along
`n = 10, 100, 1000, 10001` strictly decrease in magnitude. -/
theorem convergence_on_reference_interval :
    |calculate_total_length 0 10 100 - calculate_total_length 0 10 10|
        > |calculate_total_length 0 10 1000 - calculate_total_length 0 10 100| ∧
      |calculate_total_length 0 10 1000 - calculate_total_length 0 10 100|
        > |calculate_total_length 0 10 10001 - calculate_total_length 0 10 1000| := by
  obtain ⟨a1, a2⟩ := length_10_enclosure
  obtain ⟨b1, b2⟩ := length_100_enclosure
  obtain ⟨c1, c2⟩ := length_1000_enclosure
  obtain ⟨d1, d2⟩ := length_10001_enclosure
  norm_num at a1 a2 b1 b2 c1 c2 d1 d2
  have e1 : |calculate_total_length 0 10 100 - calculate_total_length 0 10 10|
      = calculate_total_length 0 10 10 - calculate_total_length 0 10 100 := by
    rw [abs_of_nonpos (by linarith)]; ring
  have e2 : |calculate_total_length 0 10 1000 - calculate_total_length 0 10 100|
      = calculate_total_length 0 10 100 - calculate_total_length 0 10 1000 := by
    rw [abs_of_nonpos (by linarith)]; ring
  have e3 : |calculate_total_length 0 10 10001 - calculate_total_length 0 10 1000|
      ≤ 1 / 10 ^ 8 := by
    rw [abs_le]
    constructor <;> linarith
  rw [e1, e2]
  constructor
  · linarith
  · have : (1 : ℝ) / 10 ^ 8
        < calculate_total_length 0 10 100 - calculate_total_length 0 10 1000 := by
      linarith
    exact lt_of_le_of_lt e3 this

/-- C9: on `[0, 10]` the value at `n = 10001` differs from the value at `n = 1000` by less
than `1e-4`. -/
theorem length_10001_close_to_1000 :
    |calculate_total_length 0 10 10001 - calculate_total_length 0 10 1000| < 0.0001 := by
  obtain ⟨c1, c2⟩ := length_1000_enclosure
  obtain ⟨d1, d2⟩ := length_10001_enclosure
  rw [abs_lt]
  norm_num at c1 c2 d1 d2 ⊢
  constructor <;> linarith

/-- The length on `[0, 110π]` with 10 segments: the nodes alternate between even and odd
multiples of `π`. -/
theorem length_10_on_alternating_grid :
    calculate_total_length 0 (110 * Real.pi) 10 =
      (11 * Real.pi / 24) *
        (80 * Real.sqrt (1 + (2 + 0.5) ^ 2) + 160 * Real.sqrt (1 + (-2 + 0.5) ^ 2)) := by
  have h := calculate_total_length_nodes 0 (110 * Real.pi) 10 (by decide)
  have hnode : ∀ i : Nat, (0 : ℝ) + (i : ℝ) * ((110 * Real.pi - 0) / ((10 : Nat) : ℝ))
      = ((11 * i : Nat) : ℝ) * Real.pi := by
    intro i
    push_cast
    ring
  have he : ∀ m : Nat, m % 2 = 0 →
      integrand ((m : ℝ) * Real.pi) = Real.sqrt (1 + (2 + 0.5) ^ 2) := by
    intro m hm
    rw [integrand_nat_mul_pi, Even.neg_one_pow (Nat.even_iff.mpr hm), mul_one]
  have ho : ∀ m : Nat, m % 2 = 1 →
      integrand ((m : ℝ) * Real.pi) = Real.sqrt (1 + (-2 + 0.5) ^ 2) := by
    intro m hm
    rw [integrand_nat_mul_pi, Odd.neg_one_pow (Nat.odd_iff.mpr hm), mul_neg, mul_one]
  simp only [hnode, Finset.sum_range_succ, Finset.sum_range_zero] at h
  have w0 : quad_weight 10 0 = 8 := by decide
  have w1 : quad_weight 10 1 = 32 := by decide
  have w2 : quad_weight 10 2 = 16 := by decide
  have w3 : quad_weight 10 3 = 32 := by decide
  have w4 : quad_weight 10 4 = 16 := by decide
  have w5 : quad_weight 10 5 = 32 := by decide
  have w6 : quad_weight 10 6 = 16 := by decide
  have w7 : quad_weight 10 7 = 32 := by decide
  have w8 : quad_weight 10 8 = 16 := by decide
  have w9 : quad_weight 10 9 = 32 := by decide
  have w10 : quad_weight 10 10 = 8 := by decide
  rw [w0, w1, w2, w3, w4, w5, w6, w7, w8, w9, w10,
    he (11 * 0) (by decide), ho (11 * 1) (by decide), he (11 * 2) (by decide),
    ho (11 * 3) (by decide), he (11 * 4) (by decide), ho (11 * 5) (by decide),
    he (11 * 6) (by decide), ho (11 * 7) (by decide), he (11 * 8) (by decide),
    ho (11 * 9) (by decide), he (11 * 10) (by decide),
    show ((10 : Nat) : Int) = 10 by norm_num] at h
  rw [h]
  push_cast
  ring

/-- C10 fails as stated: on the valid interval `[0, 110π]` the lengths for `n = 10` and
`n + 1 = 11` segments differ by more than `1e-3`. -/
theorem odd_even_consistency_fails :
    (0 : ℝ) < 110 * Real.pi ∧ (10 : Int) ≥ 10 ∧
      ¬ (|calculate_total_length 0 (110 * Real.pi) 10
          - calculate_total_length 0 (110 * Real.pi) (10 + 1)| < 0.001) := by
  refine ⟨by positivity, by decide, ?_⟩
  have e11 : (110 : ℝ) * Real.pi = ((11 * 5 : Nat) : ℝ) * (2 * Real.pi) := by
    push_cast; ring
  have h11 : calculate_total_length 0 (110 * Real.pi) (10 + 1)
      = (110 * Real.pi) * Real.sqrt (1 + (2 + 0.5) ^ 2) := by
    have := length_on_period_grid 11 5 (by decide)
    rw [← e11] at this
    exact_mod_cast this
  rw [h11, length_10_on_alternating_grid]
  have s7 : (2.6 : ℝ) ≤ Real.sqrt (1 + (2 + 0.5) ^ 2) := by
    apply Real.le_sqrt_of_sq_le
    norm_num
  have s3 : Real.sqrt (1 + (-2 + 0.5) ^ 2) ≤ (1.9 : ℝ) := by
    rw [Real.sqrt_le_left (by norm_num)]
    norm_num
  have hpi := Real.pi_gt_three
  intro h
  rw [abs_lt] at h
  nlinarith [h.1, h.2]

/-- C10 (amended): on the interval `[0, 10]` the lengths computed with `n = 1000` and
`n + 1 = 1001` segments agree to within `1e-3`. -/
theorem odd_even_consistency_on_reference_interval :
    |calculate_total_length 0 10 1000 - calculate_total_length 0 10 (1000 + 1)| < 0.001 := by
  obtain ⟨c1, c2⟩ := length_1000_enclosure
  obtain ⟨d1, d2⟩ := length_1001_enclosure
  rw [show (1000 : Int) + 1 = 1001 by norm_num, abs_lt]
  norm_num at c1 c2 d1 d2 ⊢
  constructor <;> linarith

/-! ## The convergence driver -/

/-- The rows of `run_convergence_analysis` when the file opens: one per entry of
`n_values`, in order. -/
theorem run_convergence_analysis_rows (a b : ℝ) :
    run_convergence_analysis true a b =
      [(10, calculate_total_length a b 10), (51, calculate_total_length a b 51),
        (100, calculate_total_length a b 100), (501, calculate_total_length a b 501),
        (1000, calculate_total_length a b 1000), (5000, calculate_total_length a b 5000),
        (10001, calculate_total_length a b 10001)] := by
  unfold run_convergence_analysis num_n_values n_values
  simp [List.range_succ]

/-- When `convergence_analysis.csv` cannot be opened no row is emitted. -/
theorem run_convergence_analysis_no_file (a b : ℝ) :
    run_convergence_analysis false a b = [] := by
  unfold run_convergence_analysis
  simp

/-- C11 fails as stated: when `convergence_analysis.csv` cannot be opened, the valid
interval `[0, 10]` gives a table without rows. -/
theorem convergence_table_empty_without_file :
    (0 : ℝ) < 10 ∧ ¬ ((run_convergence_analysis false 0 10).length = 7) := by
  rw [run_convergence_analysis_no_file]
  exact ⟨by norm_num, by decide⟩

/-- C11 (amended): for every valid interval `(a, b)`, when `convergence_analysis.csv` is
opened the table has exactly 7 rows whose `n` values are 10, 51, 100, 501, 1000, 5000,
10001 in that order, and the length in each row equals `calculate_total_length(a, b, n)`
for that row's `n` and is non-negative; when the file cannot be opened no row is
emitted. -/
theorem convergence_table_rows (a b : ℝ) (hab : a < b) :
    (run_convergence_analysis true a b).length = 7 ∧
      (run_convergence_analysis true a b).map Prod.fst = [10, 51, 100, 501, 1000, 5000, 10001] ∧
      (∀ row ∈ run_convergence_analysis true a b,
        row.2 = calculate_total_length a b row.1 ∧ 0 ≤ row.2) ∧
      run_convergence_analysis false a b = [] := by
  refine ⟨?_, ?_, ?_, run_convergence_analysis_no_file a b⟩
  · rw [run_convergence_analysis_rows]; rfl
  · rw [run_convergence_analysis_rows]; rfl
  · intro row hrow
    rw [run_convergence_analysis_rows] at hrow
    simp only [List.mem_cons, List.mem_singleton, List.not_mem_nil, or_false] at hrow
    rcases hrow with h | h | h | h | h | h | h <;> subst h <;>
      exact ⟨rfl, by dsimp only; exact length_nonneg a b _ hab⟩

theorem convergence_table_rows_witness :
    (0 : ℝ) < 10 ∧
      ((run_convergence_analysis true 0 10).length = 7 ∧
      (run_convergence_analysis true 0 10).map Prod.fst = [10, 51, 100, 501, 1000, 5000, 10001] ∧
      (∀ row ∈ run_convergence_analysis true 0 10,
        row.2 = calculate_total_length 0 10 row.1 ∧ 0 ≤ row.2) ∧
      run_convergence_analysis false 0 10 = []) :=
  ⟨by norm_num, convergence_table_rows 0 10 (by norm_num)⟩

/-! ## `main` and the plot-data sampler -/

/-- The run of `main` on an invalid interval. -/
theorem main_of_le (csv_ok plot_ok : Bool) (a b v : ℝ) (h : b ≤ a) :
    main csv_ok plot_ok a b v =
      { status := 1, calls := [], table := [], final_length := none, travel_time := none,
        plot := [] } := by
  unfold main
  rw [if_pos h]

/-- The run of `main` on a valid interval. -/
theorem main_of_lt (csv_ok plot_ok : Bool) (a b v : ℝ) (h : a < b) :
    main csv_ok plot_ok a b v =
      { status := 0,
        calls := CoreCall.run_convergence_analysis a b
          :: ((run_convergence_analysis csv_ok a b).map
              (fun row => CoreCall.calculate_total_length a b row.1)
            ++ [CoreCall.calculate_total_length a b 10001,
                CoreCall.generate_path_data_for_plotting a b 200]),
        table := run_convergence_analysis csv_ok a b,
        final_length := some (calculate_total_length a b 10001),
        travel_time := checked_quotient (calculate_total_length a b 10001) v,
        plot := generate_path_data_for_plotting plot_ok a b 200 } := by
  unfold main
  rw [if_neg (not_le.mpr h)]

/-- C12: `main` exits with a non-zero status exactly when `b <= a`, and then makes no call
of `run_convergence_analysis`, `calculate_total_length` or
`generate_path_data_for_plotting`; when `b > a` it exits with status 0 and every call of
`calculate_total_length` receives an interval with `b > a`. -/
theorem main_validates_interval (csv_ok plot_ok : Bool) (a b v : ℝ) :
    ((main csv_ok plot_ok a b v).status ≠ 0 ↔ b ≤ a) ∧
      (b ≤ a → (main csv_ok plot_ok a b v).calls = []) ∧
      (a < b → (main csv_ok plot_ok a b v).status = 0 ∧
        ∀ c ∈ (main csv_ok plot_ok a b v).calls, ∀ (a' b' : ℝ) (n : Int),
          c = CoreCall.calculate_total_length a' b' n → a' < b') := by
  refine ⟨?_, ?_, ?_⟩
  · rcases le_or_lt b a with h | h
    · rw [main_of_le csv_ok plot_ok a b v h]
      simp [h]
    · rw [main_of_lt csv_ok plot_ok a b v h]
      simp [not_le.mpr h]
  · intro h
    rw [main_of_le csv_ok plot_ok a b v h]
  · intro h
    rw [main_of_lt csv_ok plot_ok a b v h]
    refine ⟨rfl, ?_⟩
    intro c hc a' b' n hcn
    subst hcn
    simp only [List.mem_cons, List.mem_append, List.mem_map, List.mem_singleton,
      List.not_mem_nil, or_false] at hc
    rcases hc with hc | ⟨row, _, hc⟩ | hc | hc
    · cases hc
    · cases hc
      exact h
    · cases hc
      exact h
    · cases hc

/-- Row `i` of the plot data when `path_data.csv` opens. -/
theorem plot_row (a b : ℝ) (num_points : Int) (i : Nat) (hi : i < num_points.toNat) :
    (generate_path_data_for_plotting true a b num_points)[i]? =
      some (a + (i : ℝ) * (b - a) / ((num_points : ℝ) - 1),
        2 * Real.sin (a + (i : ℝ) * (b - a) / ((num_points : ℝ) - 1))
          + 0.5 * (a + (i : ℝ) * (b - a) / ((num_points : ℝ) - 1))) := by
  unfold generate_path_data_for_plotting path_function
  simp only [Bool.true_eq_false, if_false, List.getElem?_map, List.getElem?_range hi,
    Option.map_some']
  push_cast
  rw [mul_div_assoc]

/-- When `path_data.csv` cannot be opened no row is emitted. -/
theorem plot_no_file (a b : ℝ) (num_points : Int) :
    generate_path_data_for_plotting false a b num_points = [] := by
  unfold generate_path_data_for_plotting
  simp

theorem plot_length (a b : ℝ) (num_points : Int) :
    (generate_path_data_for_plotting true a b num_points).length = num_points.toNat := by
  unfold generate_path_data_for_plotting
  simp

/-- C13 fails as stated: when `path_data.csv` cannot be opened, `num_points = 200` gives no
sample. -/
theorem plot_empty_without_file :
    (2 : Int) ≤ 200 ∧
      ¬ ((generate_path_data_for_plotting false 0 10 200).length = (200 : Int).toNat) := by
  rw [plot_no_file]
  exact ⟨by decide, by decide⟩

/-- C13 (amended): for all real `a`, `b` and every `num_points >= 2`, when `path_data.csv`
is opened `generate_path_data_for_plotting` emits exactly `num_points` samples, the `i`-th
being `x_i = a + i*(b - a)/(num_points - 1)`, `y_i = 2*sin(x_i) + 0.5*x_i`, so that the
first sample is at `x = a` and the last at `x = b`; when the file cannot be opened no
sample is emitted. -/
theorem plot_samples (a b : ℝ) (num_points : Int) (hn : 2 ≤ num_points) :
    (generate_path_data_for_plotting true a b num_points).length = num_points.toNat ∧
      (∀ i : Nat, i < num_points.toNat →
        (generate_path_data_for_plotting true a b num_points)[i]? =
          some (a + (i : ℝ) * (b - a) / ((num_points : ℝ) - 1),
            2 * Real.sin (a + (i : ℝ) * (b - a) / ((num_points : ℝ) - 1))
              + 0.5 * (a + (i : ℝ) * (b - a) / ((num_points : ℝ) - 1)))) ∧
      ((generate_path_data_for_plotting true a b num_points).head?.map Prod.fst = some a) ∧
      ((generate_path_data_for_plotting true a b num_points).getLast?.map Prod.fst = some b) ∧
      generate_path_data_for_plotting false a b num_points = [] := by
  have hpos : 0 < num_points.toNat := by omega
  have hnp : ((num_points.toNat : Nat) : ℝ) = (num_points : ℝ) := by
    have : ((num_points.toNat : Nat) : Int) = num_points := Int.toNat_of_nonneg (by omega)
    exact_mod_cast congrArg (fun z : Int => (z : ℝ)) this
  have hne : (num_points : ℝ) - 1 ≠ 0 := by
    have : (2 : ℝ) ≤ (num_points : ℝ) := by exact_mod_cast hn
    linarith
  refine ⟨plot_length a b num_points, fun i hi => plot_row a b num_points i hi, ?_, ?_,
    plot_no_file a b num_points⟩
  · rw [List.head?_eq_getElem?, plot_row a b num_points 0 hpos]
    simp
  · rw [List.getLast?_eq_getElem?, plot_length,
      plot_row a b num_points (num_points.toNat - 1) (by omega)]
    simp only [Option.map_some']
    congr 1
    rw [Nat.cast_sub (by omega), hnp]
    push_cast
    field_simp

theorem plot_samples_witness :
    (2 : Int) ≤ 200 ∧
      ((generate_path_data_for_plotting true 0 10 200).length = (200 : Int).toNat ∧
      (∀ i : Nat, i < (200 : Int).toNat →
        (generate_path_data_for_plotting true 0 10 200)[i]? =
          some (0 + (i : ℝ) * (10 - 0) / (((200 : Int) : ℝ) - 1),
            2 * Real.sin (0 + (i : ℝ) * (10 - 0) / (((200 : Int) : ℝ) - 1))
              + 0.5 * (0 + (i : ℝ) * (10 - 0) / (((200 : Int) : ℝ) - 1)))) ∧
      ((generate_path_data_for_plotting true 0 10 200).head?.map Prod.fst = some 0) ∧
      ((generate_path_data_for_plotting true 0 10 200).getLast?.map Prod.fst = some 10) ∧
      generate_path_data_for_plotting false 0 10 200 = []) :=
  ⟨by decide, plot_samples 0 10 200 (by decide)⟩

/-! ## Bounds of the length by the interval length -/

theorem integrand_le_sqrt (x : ℝ) : integrand x ≤ Real.sqrt 7.25 := by
  unfold integrand
  simp only []
  apply Real.sqrt_le_sqrt
  have h1 := Real.neg_one_le_cos x
  have h2 := Real.cos_le_one x
  nlinarith

/-- The length as a sum of samples against weights that add up to `b - a`, and the bounds
that follow from `1 ≤ integrand ≤ sqrt 7.25`. -/
theorem length_weights_and_bounds (a b : ℝ) (n : Nat) (hab : a < b) (hn : 1 ≤ n) :
    ∑ i in Finset.range (n + 1), (b - a) / (n : ℝ) / 24 * (quad_weight n i : ℝ) = b - a ∧
      calculate_total_length a b (n : Int) =
        ∑ i in Finset.range (n + 1), ((b - a) / (n : ℝ) / 24 * (quad_weight n i : ℝ))
          * integrand (a + (i : ℝ) * ((b - a) / (n : ℝ))) ∧
      b - a ≤ calculate_total_length a b (n : Int) ∧
      calculate_total_length a b (n : Int) ≤ Real.sqrt 7.25 * (b - a) := by
  have hn' : (0 : ℝ) < (n : ℝ) := by exact_mod_cast hn
  have hh : 0 ≤ (b - a) / (n : ℝ) / 24 := by
    apply div_nonneg (div_nonneg (by linarith) hn'.le) (by norm_num)
  have hsum : ∑ i in Finset.range (n + 1), (b - a) / (n : ℝ) / 24 * (quad_weight n i : ℝ)
      = b - a := by
    rw [← Finset.mul_sum, quad_weight_sum n hn,
      show (b - a) / (n : ℝ) / 24 * (24 * (n : ℝ)) = (b - a) * ((n : ℝ) / (n : ℝ)) by ring,
      div_self hn'.ne', mul_one]
  have hL : calculate_total_length a b (n : Int) =
      ∑ i in Finset.range (n + 1), ((b - a) / (n : ℝ) / 24 * (quad_weight n i : ℝ))
        * integrand (a + (i : ℝ) * ((b - a) / (n : ℝ))) := by
    rw [calculate_total_length_nodes a b n hn, Finset.mul_sum]
    exact Finset.sum_congr rfl (fun i _ => by ring)
  have hw : ∀ i : Nat, 0 ≤ (b - a) / (n : ℝ) / 24 * (quad_weight n i : ℝ) :=
    fun i => mul_nonneg hh (Nat.cast_nonneg _)
  refine ⟨hsum, hL, ?_, ?_⟩
  · rw [hL]
    refine le_trans (le_of_eq hsum.symm) (Finset.sum_le_sum (fun i _ => ?_))
    have := mul_le_mul_of_nonneg_left (one_le_integrand (a + (i : ℝ) * ((b - a) / (n : ℝ))))
      (hw i)
    linarith
  · rw [hL]
    refine le_trans (Finset.sum_le_sum (fun i _ => ?_))
      (le_of_eq (show ∑ i in Finset.range (n + 1),
        Real.sqrt 7.25 * ((b - a) / (n : ℝ) / 24 * (quad_weight n i : ℝ))
          = Real.sqrt 7.25 * (b - a) by rw [← Finset.mul_sum, hsum]))
    have := mul_le_mul_of_nonneg_left (integrand_le_sqrt (a + (i : ℝ) * ((b - a) / (n : ℝ))))
      (hw i)
    linarith

/-- C14: for every interval with `b > a` and every segment count `n >= 1`,
`calculate_total_length(a, b, n)` is a sum of samples of the integrand against weights that
add up to `b - a`, and therefore `b - a <= calculate_total_length(a, b, n) <=
sqrt(7.25) * (b - a)`. -/
theorem length_between_bounds (a b : ℝ) (n : Int) (hab : a < b) (hn : 1 ≤ n) :
    ∑ i in Finset.range (n.toNat + 1),
        (b - a) / (n : ℝ) / 24 * (quad_weight n.toNat i : ℝ) = b - a ∧
      calculate_total_length a b n =
        ∑ i in Finset.range (n.toNat + 1), ((b - a) / (n : ℝ) / 24 * (quad_weight n.toNat i : ℝ))
          * integrand (a + (i : ℝ) * ((b - a) / (n : ℝ))) ∧
      b - a ≤ calculate_total_length a b n ∧
      calculate_total_length a b n ≤ Real.sqrt 7.25 * (b - a) := by
  obtain ⟨m, rfl⟩ : ∃ m : Nat, n = (m : Int) := ⟨n.toNat, (Int.toNat_of_nonneg (by omega)).symm⟩
  have h := length_weights_and_bounds a b m hab (by omega)
  simpa using h

theorem length_between_bounds_witness :
    (0 : ℝ) < 10 ∧ (1 : Int) ≤ 51 ∧
      (∑ i in Finset.range ((51 : Int).toNat + 1),
        (10 - 0) / ((51 : Int) : ℝ) / 24 * (quad_weight (51 : Int).toNat i : ℝ) = 10 - 0 ∧
      calculate_total_length 0 10 51 =
        ∑ i in Finset.range ((51 : Int).toNat + 1),
          ((10 - 0) / ((51 : Int) : ℝ) / 24 * (quad_weight (51 : Int).toNat i : ℝ))
            * integrand (0 + (i : ℝ) * ((10 - 0) / ((51 : Int) : ℝ))) ∧
      10 - 0 ≤ calculate_total_length 0 10 51 ∧
      calculate_total_length 0 10 51 ≤ Real.sqrt 7.25 * (10 - 0)) :=
  ⟨by norm_num, by decide, length_between_bounds 0 10 51 (by norm_num) (by decide)⟩

/-! ## The final length and the convergence table -/

/-- For `v = 0` the travel time that `main` reports is not a real number. -/
theorem checked_quotient_zero (x : ℝ) : checked_quotient x 0 = none := by
  unfold checked_quotient
  rw [if_pos rfl]

end NpcPath
